import Mathlib

/-!
Verification development for the newsletter-builder repository.

The Python sources (src/utils/storage.py, src/app/services/pdf.py,
src/app/config/settings.py) are shallowly embedded below.  Python strings
become `List Char`; the filesystem becomes an explicit list of files;
floating point arithmetic in the PDF compositor is idealised as `ℚ`;
machine-level concerns (inode ctime, PIL resampling) are abstracted as data
carried by the embedding.  Character classification (`isalnum`, lowercasing)
is modelled on its ASCII behaviour; Python-level Unicode tables beyond the
whitespace set are out of scope.  Each definition mirrors one function of the
source and keeps its name where Lean allows it.
-/

/-! ## Character classification (regex classes of storage.py lines 20-21) -/

/-- Whitespace as matched by Python's `str.strip` / `re \s` (standard set). -/
def isPySpace (c : Char) : Bool :=
  (9 ≤ c.toNat && c.toNat ≤ 13) || (28 ≤ c.toNat && c.toNat ≤ 32) ||
  c.toNat = 0x85 || c.toNat = 0xA0 || c.toNat = 0x1680 ||
  (0x2000 ≤ c.toNat && c.toNat ≤ 0x200A) || c.toNat = 0x2028 ||
  c.toNat = 0x2029 || c.toNat = 0x202F || c.toNat = 0x205F || c.toNat = 0x3000

/-- Complement of `FILENAME_ALLOWED_PATTERN = [^A-Za-z0-9 _\.\-]+`:
the characters a filename stem may keep. -/
def isFilenameAllowedChar (c : Char) : Bool :=
  (65 ≤ c.toNat && c.toNat ≤ 90) || (97 ≤ c.toNat && c.toNat ≤ 122) ||
  (48 ≤ c.toNat && c.toNat ≤ 57) || c.toNat = 32 || c.toNat = 95 ||
  c.toNat = 46 || c.toNat = 45

/-- Complement of `FOLDER_NAME_PATTERN = [^A-Za-z0-9 _\-]+`:
the characters a folder segment may keep (no dot). -/
def isFolderAllowedChar (c : Char) : Bool :=
  (65 ≤ c.toNat && c.toNat ≤ 90) || (97 ≤ c.toNat && c.toNat ≤ 122) ||
  (48 ≤ c.toNat && c.toNat ≤ 57) || c.toNat = 32 || c.toNat = 95 ||
  c.toNat = 45

/-- Python `str.isalnum`, restricted to its ASCII behaviour. -/
def pyIsAlnum (c : Char) : Bool :=
  (65 ≤ c.toNat && c.toNat ≤ 90) || (97 ≤ c.toNat && c.toNat ≤ 122) ||
  (48 ≤ c.toNat && c.toNat ≤ 57)

/-- Python `str.lower`, restricted to its ASCII behaviour. -/
def pyToLower (c : Char) : Char :=
  if 65 ≤ c.toNat && c.toNat ≤ 90 then Char.ofNat (c.toNat + 32) else c

/-- Lower-case ASCII letter or digit: shape of a cleaned extension character. -/
def isLowerAlnumChar (c : Char) : Bool :=
  (97 ≤ c.toNat && c.toNat ≤ 122) || (48 ≤ c.toNat && c.toNat ≤ 57)

/-! ## Basic string operations used by the sanitizer -/

/-- Python `str.replace(a, b)` for single characters. -/
def replaceChar (a b : Char) (l : List Char) : List Char :=
  l.map fun c => if c = a then b else c

/-- Python `str.lstrip()`. -/
def pyLStrip (l : List Char) : List Char := l.dropWhile isPySpace

/-- Python `str.rstrip()`. -/
def pyRStrip (l : List Char) : List Char := (l.reverse.dropWhile isPySpace).reverse

/-- Python `str.strip()`. -/
def pyStrip (l : List Char) : List Char := pyRStrip (pyLStrip l)

/-- posix `os.path.basename`: the part after the last slash. -/
def basename (l : List Char) : List Char :=
  (l.reverse.takeWhile (fun c => c ≠ '/')).reverse

/-- Worker for `patternSub`: `inRun` records whether we are inside a run of
matched characters (the regexes substitute one space per maximal run). -/
def patternSubAux (bad : Char → Bool) : Bool → List Char → List Char
  | _, [] => []
  | inRun, c :: rest =>
    if bad c then
      if inRun then patternSubAux bad true rest
      else ' ' :: patternSubAux bad true rest
    else c :: patternSubAux bad false rest

/-- Python `re.sub(pattern+, ' ', s)`: each maximal run of characters
matching `bad` is replaced by a single space. -/
def patternSub (bad : Char → Bool) (l : List Char) : List Char :=
  patternSubAux bad false l

/-- Python `str.replace('..', '.')`: left-to-right, non-overlapping
(storage.py line 58).  Note `"..."` becomes `".."`, not `"."`. -/
def replaceDoubleDot : List Char → List Char
  | [] => []
  | [c] => [c]
  | c :: d :: rest =>
    if c = '.' ∧ d = '.' then '.' :: replaceDoubleDot rest
    else c :: replaceDoubleDot (d :: rest)

/-- Python `str.split(sep)` (no maxsplit): always returns at least one piece. -/
def pySplit (sep : Char) : List Char → List (List Char)
  | [] => [[]]
  | c :: rest =>
    match pySplit sep rest with
    | h :: t => if c = sep then [] :: h :: t else (c :: h) :: t
    | [] => [[c]]

/-- Python `sep.join` for `sep = '/'`. -/
def joinSlash : List (List Char) → List Char
  | [] => []
  | [p] => p
  | p :: q :: rest => p ++ '/' :: joinSlash (q :: rest)

/-- posix `os.path.splitext`: split off the extension at the last dot,
provided a non-dot character precedes it within the basename (leading dots
of a hidden file are not an extension separator). -/
def splitext (p : List Char) : List Char × List Char :=
  let r := p.reverse
  let afterDot := r.takeWhile (fun c => c ≠ '.')
  if afterDot.length = p.length then (p, [])
  else if afterDot.contains '/' then (p, [])
  else if (r.drop (afterDot.length + 1)).takeWhile (fun c => c ≠ '/')
            |>.any (fun c => c ≠ '.') then
    (p.take (p.length - afterDot.length - 1), '.' :: afterDot.reverse)
  else (p, [])

/-- No two adjacent characters of `l` satisfy the pair predicate `p`. -/
def noAdjPair (p : Char → Char → Bool) : List Char → Bool
  | x :: y :: rest => !p x y && noAdjPair p (y :: rest)
  | _ => true

/-! ## urllib.parse.unquote / quote

`unquote` turns `%XX` escape sequences into bytes and decodes the byte runs
as UTF-8 with `errors='replace'` (the Python default for `str` input);
`quote(s, safe='/')` percent-encodes the UTF-8 bytes of every character
outside the unreserved set. -/

/-- Value of a hexadecimal digit, upper or lower case. -/
def hexVal (c : Char) : Option Nat :=
  if 48 ≤ c.toNat && c.toNat ≤ 57 then some (c.toNat - 48)
  else if 65 ≤ c.toNat && c.toNat ≤ 70 then some (c.toNat - 55)
  else if 97 ≤ c.toNat && c.toNat ≤ 102 then some (c.toNat - 87)
  else none

/-- The replacement character U+FFFD produced by `errors='replace'`. -/
def replacementChar : Char := Char.ofNat 0xFFFD

/-- Is `b` a UTF-8 continuation byte? -/
def isCont (b : Nat) : Bool := 0x80 ≤ b && b ≤ 0xBF

/-- Admissible first continuation byte after a 3-byte lead (the ranges that
exclude overlong encodings and surrogates). -/
def cont3Ok (lead b : Nat) : Bool :=
  if lead = 0xE0 then 0xA0 ≤ b && b ≤ 0xBF
  else if lead = 0xED then 0x80 ≤ b && b ≤ 0x9F
  else isCont b

/-- Admissible first continuation byte after a 4-byte lead. -/
def cont4Ok (lead b : Nat) : Bool :=
  if lead = 0xF0 then 0x90 ≤ b && b ≤ 0xBF
  else if lead = 0xF4 then 0x80 ≤ b && b ≤ 0x8F
  else isCont b

/-- UTF-8 decoding with `errors='replace'`: an invalid sequence contributes
one U+FFFD for its maximal valid subpart, as CPython's decoder does. -/
def utf8DecodeReplace : List Nat → List Char
  | [] => []
  | b :: rest =>
    if b < 0x80 then Char.ofNat b :: utf8DecodeReplace rest
    else if 0xC2 ≤ b && b ≤ 0xDF then
      match rest with
      | [] => [replacementChar]
      | b1 :: rest1 =>
        if isCont b1 then
          Char.ofNat ((b - 0xC0) * 0x40 + (b1 - 0x80)) :: utf8DecodeReplace rest1
        else replacementChar :: utf8DecodeReplace (b1 :: rest1)
    else if 0xE0 ≤ b && b ≤ 0xEF then
      match rest with
      | [] => [replacementChar]
      | b1 :: rest1 =>
        if cont3Ok b b1 then
          match rest1 with
          | [] => [replacementChar]
          | b2 :: rest2 =>
            if isCont b2 then
              Char.ofNat (((b - 0xE0) * 0x40 + (b1 - 0x80)) * 0x40 + (b2 - 0x80)) ::
                utf8DecodeReplace rest2
            else replacementChar :: utf8DecodeReplace (b2 :: rest2)
        else replacementChar :: utf8DecodeReplace (b1 :: rest1)
    else if 0xF0 ≤ b && b ≤ 0xF4 then
      match rest with
      | [] => [replacementChar]
      | b1 :: rest1 =>
        if cont4Ok b b1 then
          match rest1 with
          | [] => [replacementChar]
          | b2 :: rest2 =>
            if isCont b2 then
              match rest2 with
              | [] => [replacementChar]
              | b3 :: rest3 =>
                if isCont b3 then
                  Char.ofNat ((((b - 0xF0) * 0x40 + (b1 - 0x80)) * 0x40 + (b2 - 0x80)) * 0x40
                      + (b3 - 0x80)) :: utf8DecodeReplace rest3
                else replacementChar :: utf8DecodeReplace (b3 :: rest3)
            else replacementChar :: utf8DecodeReplace (b2 :: rest2)
        else replacementChar :: utf8DecodeReplace (b1 :: rest1)
    else replacementChar :: utf8DecodeReplace rest

/-- Tokenise for `unquote`: `%XX` (hex) and ASCII characters become the bytes
they stand for, a `%` without two hex digits stays a literal percent byte,
non-ASCII characters pass through already decoded. -/
def unquoteTokens : List Char → List (Sum Nat Char)
  | [] => []
  | c :: rest =>
    if c = '%' then
      match rest with
      | a :: b :: rest2 =>
        match hexVal a, hexVal b with
        | some x, some y => Sum.inl (16 * x + y) :: unquoteTokens rest2
        | _, _ => Sum.inl 37 :: unquoteTokens (a :: b :: rest2)
      | r => Sum.inl 37 :: unquoteTokens r
    else (if c.toNat < 128 then Sum.inl c.toNat else Sum.inr c) :: unquoteTokens rest

/-- Group maximal runs of byte tokens so each run is UTF-8-decoded as one
unit (CPython decodes literal ASCII and escape bytes of a run together). -/
def groupTokens : List (Sum Nat Char) → List (Sum (List Nat) Char)
  | [] => []
  | Sum.inr c :: rest => Sum.inr c :: groupTokens rest
  | Sum.inl b :: rest =>
    match groupTokens rest with
    | Sum.inl bs :: out => Sum.inl (b :: bs) :: out
    | out => Sum.inl [b] :: out

/-- `urllib.parse.unquote` with the default `encoding='utf-8'`,
`errors='replace'`. -/
def unquote (l : List Char) : List Char :=
  (groupTokens (unquoteTokens l)).flatMap fun t =>
    match t with
    | Sum.inl bs => utf8DecodeReplace bs
    | Sum.inr c => [c]

/-- UTF-8 encoding of one character. -/
def utf8EncodeChar (c : Char) : List Nat :=
  let n := c.toNat
  if n < 0x80 then [n]
  else if n < 0x800 then [0xC0 + n / 0x40, 0x80 + n % 0x40]
  else if n < 0x10000 then
    [0xE0 + n / 0x1000, 0x80 + n / 0x40 % 0x40, 0x80 + n % 0x40]
  else
    [0xF0 + n / 0x40000, 0x80 + n / 0x1000 % 0x40, 0x80 + n / 0x40 % 0x40,
     0x80 + n % 0x40]

/-- Upper-case hexadecimal digit. -/
def hexDigitUpper (n : Nat) : Char :=
  if n < 10 then Char.ofNat (48 + n) else Char.ofNat (55 + n)

/-- Characters `quote(s, safe='/')` leaves unescaped: the unreserved set
`A-Za-z0-9_.~-` plus the safe character `/`. -/
def isQuoteSafe (c : Char) : Bool :=
  (65 ≤ c.toNat && c.toNat ≤ 90) || (97 ≤ c.toNat && c.toNat ≤ 122) ||
  (48 ≤ c.toNat && c.toNat ≤ 57) || c.toNat = 95 || c.toNat = 46 ||
  c.toNat = 126 || c.toNat = 45 || c.toNat = 47

/-- `urllib.parse.quote(s, safe='/')`. -/
def quote (l : List Char) : List Char :=
  l.flatMap fun c =>
    if isQuoteSafe c then [c]
    else (utf8EncodeChar c).flatMap fun b =>
      ['%', hexDigitUpper (b / 16), hexDigitUpper (b % 16)]

/-! ## Filename / path sanitizer (storage.py lines 22-94) -/

def DEFAULT_BASENAME : List Char := "newsletter".toList

def DEFAULT_EXTENSION : List Char := ".html".toList

/-- `sanitize_filename` (storage.py lines 26-64). -/
def sanitize_filename (filename : List Char)
    (default_extension : List Char := DEFAULT_EXTENSION) : List Char :=
  let decoded := unquote filename
  let decoded := replaceChar '%' ' ' decoded
  let decoded := replaceChar '\\' '/' decoded
  let decoded := basename decoded
  let decoded := pyStrip decoded
  let decoded := if decoded.isEmpty then DEFAULT_BASENAME ++ default_extension
                 else decoded
  let ne := splitext decoded
  let ext :=
    if ne.2.isEmpty then default_extension
    else
      let cleaned := ((ne.2.map pyToLower).dropWhile (fun c => c = '.')).filter pyIsAlnum
      if cleaned.isEmpty then default_extension else '.' :: cleaned
  let name := patternSub (fun c => !(isFilenameAllowedChar c)) ne.1
  let name := pyStrip (patternSub isPySpace name)
  let name := if name.isEmpty then DEFAULT_BASENAME else name
  let sanitized := name ++ ext
  let sanitized := pyStrip (replaceDoubleDot sanitized)
  let sanitized := if sanitized.isEmpty then DEFAULT_BASENAME ++ default_extension
                   else sanitized
  sanitized.take 255

/-- `sanitize_folder_segment` (storage.py lines 67-77). -/
def sanitize_folder_segment (segment : List Char) : List Char :=
  let decoded := unquote segment
  let decoded := replaceChar '%' ' ' decoded
  let decoded := replaceChar '\\' ' ' decoded
  let decoded := pyStrip decoded
  let cleaned := patternSub (fun c => !(isFolderAllowedChar c)) decoded
  let cleaned := pyStrip (patternSub isPySpace cleaned)
  let cleaned := if cleaned.isEmpty then "folder".toList else cleaned
  cleaned.take 120

/-- `sanitize_relative_path` (storage.py lines 80-94).  The source walks the
non-empty segments by index and applies the filename rule exactly when the
index is the last one; `dropLast`/`getLast` expresses the same mapping. -/
def sanitize_relative_path (file_id : List Char) : List Char :=
  let normalized := replaceChar '\\' '/' file_id
  let parts := (pySplit '/' normalized).filter (fun p => !p.isEmpty)
  if h : parts = [] then sanitize_filename []
  else joinSlash (parts.dropLast.map sanitize_folder_segment
    ++ [sanitize_filename (parts.getLast h)])

/-! ## Path model for the local backend (storage.py lines 228-332)

An absolute path is its list of segments (each a `List Char`), rooted at the
filesystem root; the storage root `LocalStorage.full_path` is such a list.
`os.path.abspath(os.path.join(root, rel))` is purely lexical: join, then
`normpath` (drop empty and `.` segments, let `..` pop — at the root of an
absolute path `..` is dropped, as posix `normpath` does). -/

/-- Does the relative path start with a slash?  `os.path.join` then ignores
the first operand (absolute-path injection). -/
def startsWithSlash (rel : List Char) : Bool := rel.head? = some '/'

/-- One step of posix `normpath` on an absolute path's segment list. -/
def normStep (acc : List (List Char)) (s : List Char) : List (List Char) :=
  if s = [] ∨ s = ['.'] then acc
  else if s = ['.', '.'] then acc.dropLast
  else acc ++ [s]

/-- posix `normpath` of an absolute path given as raw segments. -/
def normSegs (segs : List (List Char)) : List (List Char) :=
  segs.foldl normStep []

/-- The absolute resolution `os.path.abspath(os.path.join(root, rel))`
appearing in `_safe_join` (storage.py line 260). -/
def pathResolution (root : List (List Char)) (rel : List Char) : List (List Char) :=
  if startsWithSlash rel then normSegs (pySplit '/' rel)
  else normSegs (root ++ pySplit '/' rel)

/-- Longest common leading run of equal segments. -/
def commonSegs : List (List Char) → List (List Char) → List (List Char)
  | a :: as, b :: bs => if a = b then a :: commonSegs as bs else []
  | _, _ => []

/-- posix `os.path.commonpath` for two absolute paths: segments are compared
after dropping empty and `.` components. -/
def commonpath (a b : List (List Char)) : List (List Char) :=
  commonSegs (a.filter fun s => !(s = [] ∨ s = ['.'] : Bool))
    (b.filter fun s => !(s = [] ∨ s = ['.'] : Bool))

/-- `LocalStorage._safe_join` (storage.py lines 258-267): resolve, then raise
`ValueError` (here `none`) unless the common path with the storage root is
the root itself. -/
def safe_join (root : List (List Char)) (relative_path : List Char) :
    Option (List (List Char)) :=
  let absolute_path := pathResolution root relative_path
  if commonpath root absolute_path = root then some absolute_path else none

/-- A storage root as `os.path.abspath` produces it: no empty, `.` or `..`
segments. -/
def normalizedRoot (root : List (List Char)) : Bool :=
  root.all fun s => !(s = [] ∨ s = ['.'] ∨ s = ['.', '.'] : Bool)

/-- `LocalStorage._candidate_ids` (storage.py lines 231-256). -/
def candidate_ids (file_id : List Char) : List (List Char) :=
  let normalized := replaceChar '\\' '/' file_id
  let candidates := [normalized]
  let decoded := unquote normalized
  let candidates := if candidates.contains decoded then candidates
                    else candidates ++ [decoded]
  let encoded := if decoded.isEmpty then [] else quote decoded
  let candidates := if encoded.isEmpty || candidates.contains encoded then candidates
                    else candidates ++ [encoded]
  let sanitized := sanitize_relative_path normalized
  let candidates := if candidates.contains sanitized then candidates
                    else candidates ++ [sanitized]
  let sanitized_encoded := if sanitized.isEmpty then [] else quote sanitized
  let candidates := if sanitized_encoded.isEmpty || candidates.contains sanitized_encoded
                    then candidates else candidates ++ [sanitized_encoded]
  candidates

/-- Python `str.rsplit('/', 1)`: split the directory part from the final
name at the last slash, if any. -/
def rsplitSlash (l : List Char) : Option (List Char × List Char) :=
  let after := l.reverse.takeWhile (fun c => c ≠ '/')
  if after.length = l.length then none
  else some (l.take (l.length - after.length - 1), after.reverse)

/-- `LocalStorage._find_file_in_directory` (storage.py lines 269-307).
`ex` is `os.path.exists`; `listdir d = none` models `os.listdir` raising
`OSError` (caught, giving `none`); entries are scanned in listing order. -/
def find_file_in_directory (root : List (List Char)) (ex : List (List Char) → Bool)
    (listdir : List (List Char) → Option (List (List Char)))
    (file_id : List Char) : Option (List (List Char)) :=
  let normalized_id := replaceChar '\\' '/' file_id
  let dirTarget : Option (List (List Char)) × List Char :=
    match rsplitSlash normalized_id with
    | some (dir_path, target) => (safe_join root dir_path, target)
    | none => (some root, normalized_id)
  match dirTarget with
  | (none, _) => none
  | (some search_dir, target) =>
    if !ex search_dir then none
    else match listdir search_dir with
      | none => none
      | some entries =>
        (entries.find? fun actual =>
            actual = target ∨ sanitize_filename actual = sanitize_filename target).map
          fun actual => search_dir ++ [actual]

/-- First candidate that `_safe_join` accepts and that exists
(the loop of `_resolve_existing_path`, storage.py lines 312-318). -/
def firstExisting (root : List (List Char)) (ex : List (List Char) → Bool) :
    List (List Char) → Option (List (List Char))
  | [] => none
  | c :: rest =>
    match safe_join root c with
    | some p => if ex p then some p else firstExisting root ex rest
    | none => firstExisting root ex rest

/-- `LocalStorage._resolve_existing_path` (storage.py lines 309-325). -/
def resolve_existing_path (root : List (List Char)) (ex : List (List Char) → Bool)
    (listdir : List (List Char) → Option (List (List Char)))
    (file_id : List Char) : Option (List (List Char)) :=
  match firstExisting root ex (candidate_ids file_id) with
  | some p => some p
  | none => find_file_in_directory root ex listdir file_id

/-! ## A concrete filesystem state

The filesystem is the association list of existing files (absolute segment
path to byte content).  A directory exists when it is the storage root or a
proper ancestor of some file; empty auxiliary directories are not modelled
(they are invisible to every claim considered here). -/

/-- Filesystem state: existing files with their contents. -/
def FS := List (List (List Char) × List Nat)

instance : DecidableEq FS := by unfold FS; infer_instance

/-- Content of the file at `p`, if `p` is a file. -/
def lookupFile (fs : FS) (p : List (List Char)) : Option (List Nat) :=
  (fs.find? fun e => e.1 = p).map fun e => e.2

/-- Is `p` an existing file? -/
def isFile (fs : FS) (p : List (List Char)) : Bool :=
  fs.any fun e => e.1 = p

/-- Is `p` a (non-empty) directory, i.e. a proper ancestor of some file? -/
def isDir (fs : FS) (p : List (List Char)) : Bool :=
  fs.any fun e => p <+: e.1 ∧ p ≠ e.1

/-- `os.path.exists` over this state (the storage root is created at
construction and always exists). -/
def pathExists (root : List (List Char)) (fs : FS) (p : List (List Char)) : Bool :=
  p = root || isFile fs p || isDir fs p

/-- `os.listdir` over this state: the names directly under `d`, in the order
the files are listed (the OS order is unspecified; claims do not rely on
it).  Listing a file or a missing directory yields no usable entries, as the
raised `OSError` is caught by every caller. -/
def listdirFS (fs : FS) (d : List (List Char)) : Option (List (List Char)) :=
  some ((fs.filterMap fun e =>
    if d <+: e.1 ∧ d ≠ e.1 then e.1.drop d.length |>.head? else none).dedup)

/-- Remove the file at `p`. -/
def removeFile (fs : FS) (p : List (List Char)) : FS :=
  fs.filter fun e => e.1 ≠ p

/-- Create or overwrite the file at `p` with `content`. -/
def writeFile (fs : FS) (p : List (List Char)) (content : List Nat) : FS :=
  (p, content) :: removeFile fs p

/-- Errors surfaced by `LocalStorage.download`. -/
inductive PyErr where
  | fileNotFound
  | isADirectory
deriving DecidableEq

/-- `LocalStorage.download` (storage.py lines 375-382): raise
`FileNotFoundError` when no candidate resolves, otherwise read the resolved
path (`open` on a directory raises `IsADirectoryError`). -/
def LocalStorage.download (root : List (List Char)) (fs : FS) (file_id : List Char) :
    Except PyErr (List Nat) :=
  match resolve_existing_path root (pathExists root fs) (listdirFS fs) file_id with
  | none => Except.error PyErr.fileNotFound
  | some p =>
    match lookupFile fs p with
    | some content => Except.ok content
    | none => Except.error PyErr.isADirectory

/-- `LocalStorage.delete` (storage.py lines 384-401): resolve, remove, report
`True`; any failure (unresolved id, or `os.remove` raising because the
resolved path is a directory) is caught and reported as `False`.  The
`os.removedirs` cleanup only removes empty directories, which this state
does not represent. -/
def LocalStorage.delete (root : List (List Char)) (fs : FS) (file_id : List Char) :
    Bool × FS :=
  match resolve_existing_path root (pathExists root fs) (listdirFS fs) file_id with
  | none => (false, fs)
  | some p => if isFile fs p then (true, removeFile fs p) else (false, fs)

/-- `LocalStorage.save` (storage.py lines 403-435): resolve any existing
legacy file, always write to the sanitized target path, removing the legacy
file first when it differs (best-effort: failure of the removal is caught
and logged).  `os.makedirs` fails when an ancestor of the target is an
existing file; `open(..., 'wb')` fails when the target is a directory; both
are caught by the outer handler, which returns `False` with whatever partial
effects already happened. -/
def LocalStorage.save (root : List (List Char)) (fs : FS) (file_id : List Char)
    (content : List Nat) : Bool × FS :=
  let existing := resolve_existing_path root (pathExists root fs) (listdirFS fs) file_id
  let normalized_id := replaceChar '\\' '/' file_id
  let safe_relative := sanitize_relative_path normalized_id
  match safe_join root safe_relative with
  | none => (false, fs)
  | some target =>
    if (List.range target.length).any (fun k => isFile fs (target.take k)) then
      (false, fs)
    else
      let fs1 := match existing with
        | some p => if p ≠ target ∧ isFile fs p then removeFile fs p else fs
        | none => fs
      if isDir fs1 target then (false, fs1)
      else (true, writeFile fs1 target content)

/-! ## PDF compositor (pdf.py `PDFService._compose_pdf`, lines 324-386)

Python floats are idealised as `ℚ`; `int(x)` truncates toward zero; `//` is
floor division.  The image dimensions come from the decoded screenshot. -/

/-- Python `int()` on a rational: truncation toward zero (the T-division of
the reduced numerator by the denominator). -/
def pyInt (q : ℚ) : ℤ := q.num / (q.den : ℤ)

/-- Python `//` on integers: floor division. -/
def pyFloorDiv (a b : ℤ) : ℤ := Int.fdiv a b

/-- `max_scale = max(0.1, _get_float(options, ..., DEFAULT_MAX_SCALE))`
(pdf.py line 119). -/
def max_scale_of (raw : ℚ) : ℚ := max (1/10) raw

/-- `manual_scale = _get_float(options, ["scale"], 100.0) / 100.0`, reset to
`1.0` when non-positive (pdf.py lines 122-124). -/
def manual_scale_of (raw : ℚ) : ℚ :=
  let m := raw / 100
  if m ≤ 0 then 1 else m

/-- The inputs reaching `_compose_pdf`. -/
structure ComposeInput where
  page_width_in : ℚ
  page_height_in : ℚ
  margin_in : ℚ
  dpi : ℤ
  manual_scale : ℚ
  allow_scale_up : Bool
  max_scale : ℚ
  image_w : ℤ
  image_h : ℤ

def page_width_px (i : ComposeInput) : ℤ := max 1 (pyInt (i.page_width_in * i.dpi))

def page_height_px (i : ComposeInput) : ℤ := max 1 (pyInt (i.page_height_in * i.dpi))

def margin_px (i : ComposeInput) : ℤ := max 0 (pyInt (i.margin_in * i.dpi))

def content_width (i : ComposeInput) : ℤ := max 10 (page_width_px i - margin_px i * 2)

/-- `width_ratio = max(0.01, content_width / image.width)` (pdf.py line 345). -/
def widthFit (i : ComposeInput) : ℚ :=
  max (1/100) ((content_width i : ℚ) / (i.image_w : ℚ))

/-- `max_allowed` (pdf.py lines 347-350). -/
def max_allowed (i : ComposeInput) : ℚ :=
  if i.allow_scale_up then min (widthFit i) i.max_scale else min (widthFit i) 1

/-- `desired_ratio` (pdf.py lines 352-356). -/
def desiredScale (i : ComposeInput) : ℚ :=
  let d := max (1/100) i.manual_scale
  if i.allow_scale_up then min d i.max_scale else min d 1

/-- `scale_ratio = max(0.01, min(max_allowed, desired_ratio))` (pdf.py line 358). -/
def scaleFinal (i : ComposeInput) : ℚ := max (1/100) (min (max_allowed i) (desiredScale i))

/-- Width after resizing (pdf.py lines 360-363). -/
def scaled_w (i : ComposeInput) : ℤ := max 1 (pyInt (i.image_w * scaleFinal i))

/-- Height after resizing. -/
def scaled_h (i : ComposeInput) : ℤ := max 1 (pyInt (i.image_h * scaleFinal i))

/-- `required_height = scaled_size[1] + margin_px * 2` (pdf.py line 366). -/
def required_height (i : ComposeInput) : ℤ := scaled_h i + margin_px i * 2

/-- Page height after the growth step (pdf.py lines 367-368). -/
def final_page_height (i : ComposeInput) : ℤ :=
  if required_height i > page_height_px i then required_height i else page_height_px i

/-- Vertical paste offset (pdf.py lines 372-379). -/
def offset_y (i : ComposeInput) : ℤ :=
  let m := margin_px i
  let available_height := final_page_height i - scaled_h i
  let o := m + max 0 (pyFloorDiv available_height 2 - m)
  let o := min o (final_page_height i - scaled_h i - m)
  max m o

/-! ## File records, listing, and the storage manager -/

/-- A listing entry (spec FileRecord).  `created_at` is the creation
timestamp; the source carries it as an ISO-8601 string, whose lexicographic
order agrees with the numeric order used here. -/
structure FileRecord where
  public_id : List Char
  filename : List Char
  display_name : List Char
  size : Nat
  created_at : Nat
  format : List Char
  secure_url : List Char
deriving DecidableEq

/-- One file met by the `os.walk` in `LocalStorage.list_files`. -/
structure WalkEntry where
  relative_path : List Char
  filename : List Char
  size : Nat
  ctime : Nat
deriving DecidableEq

/-- `os.path.splitext(filename)[1][1:] if '.' in filename else ''`. -/
def extFormat (f : List Char) : List Char :=
  if f.contains '.' then (splitext f).2.drop 1 else []

/-- `url_for('static', filename=f"files/{file_id}")`. -/
def LocalStorage.get_file_url (file_id : List Char) : List Char :=
  "/static/files/".toList ++ file_id

/-- The record built for one walked file (storage.py lines 454-462). -/
def mkLocalRecord (e : WalkEntry) : FileRecord where
  public_id := e.relative_path
  filename := e.filename
  display_name := sanitize_filename e.filename
  size := e.size
  created_at := e.ctime
  format := extFormat e.filename
  secure_url := LocalStorage.get_file_url e.relative_path

/-- `LocalStorage.list_files` (storage.py lines 437-468): build a record per
walked file, then `files.sort(key=..., reverse=True)` — a stable descending
sort by `created_at`, modelled by `mergeSort` with the matching comparator.
`walk` is the file list `os.walk` produces under `root/prefix`. -/
def LocalStorage.list_files (walk : List WalkEntry) : List FileRecord :=
  (walk.map mkLocalRecord).mergeSort fun a b => decide (b.created_at ≤ a.created_at)

/-- One resource of a `cloudinary.api.resources` response. -/
structure CloudResource where
  public_id : List Char
  bytes : Nat
  created_at : Nat
  format : List Char
  secure_url : List Char
deriving DecidableEq

/-- `resource['public_id'].split('/')[-1]`. -/
def cloudFilename (pid : List Char) : List Char := (pySplit '/' pid).getLastD []

/-- The record built for one cloud resource (storage.py lines 209-217). -/
def mkCloudRecord (r : CloudResource) : FileRecord where
  public_id := r.public_id
  filename := cloudFilename r.public_id
  display_name := sanitize_filename (cloudFilename r.public_id)
  size := r.bytes
  created_at := r.created_at
  format := r.format
  secure_url := r.secure_url

/-- `CloudinaryStorage.list_files` (storage.py lines 197-221): map the API
response to records in the order the response supplies — no sort is
applied. -/
def CloudinaryStorage.list_files (resources : List CloudResource) : List FileRecord :=
  resources.map mkCloudRecord

/-- `Config.STORAGE_CACHE_TTL` default (settings.py line 53).  No other code
reads this value. -/
def Config.STORAGE_CACHE_TTL : Nat := 120

/-- `StorageManager.list_files` (storage.py lines 510-512) is the single
statement `return self.storage.list_files(prefix)`.  The backend is
modelled as the sequence of listings it would return on successive
invocations, instrumented with the running invocation count; the manager
consults no cache, no clock and no TTL. -/
def StorageManager.list_files (backend : Nat → List FileRecord)
    (backendCalls : Nat) (pfx : List Char) : List FileRecord × Nat :=
  (backend backendCalls, backendCalls + 1)

/-! ## The resolution procedure as the specification words it (claim C4)

These definitions follow the claim's enumeration — raw id, URL-decoded,
URL-re-encoded, fully sanitized, sanitized-then-re-encoded, then the
directory scan matching on sanitized names — and are compared with the
source-derived `resolve_existing_path`. -/

/-- One candidate trial of the resolution loop: safe-join, then existence;
`none` when `_safe_join` raised or the path does not exist. -/
def checkOne (root : List (List Char)) (ex : List (List Char) → Bool)
    (c : List Char) : Option (List (List Char)) :=
  match safe_join root c with
  | some p => if ex p then some p else none
  | none => none

/-- The five-candidate order exactly as the specification enumerates it. -/
def spec_candidates (file_id : List Char) : List (List Char) :=
  [file_id, unquote file_id, quote (unquote file_id),
   sanitize_relative_path file_id, quote (sanitize_relative_path file_id)]

/-- The directory-scan fallback as the specification states it: the first
directory entry whose sanitized name equals the sanitized target name. -/
def spec_scan (root : List (List Char)) (ex : List (List Char) → Bool)
    (listdir : List (List Char) → Option (List (List Char)))
    (file_id : List Char) : Option (List (List Char)) :=
  let dirTarget : Option (List (List Char)) × List Char :=
    match rsplitSlash file_id with
    | some (dir_path, target) => (safe_join root dir_path, target)
    | none => (some root, file_id)
  match dirTarget with
  | (none, _) => none
  | (some search_dir, target) =>
    if !ex search_dir then none
    else match listdir search_dir with
      | none => none
      | some entries =>
        (entries.find? fun actual =>
          sanitize_filename actual = sanitize_filename target).map
          fun actual => search_dir ++ [actual]

/-- The whole resolution procedure as the specification words it. -/
def spec_resolution (root : List (List Char)) (ex : List (List Char) → Bool)
    (listdir : List (List Char) → Option (List (List Char)))
    (file_id : List Char) : Option (List (List Char)) :=
  match firstExisting root ex (spec_candidates file_id) with
  | some p => some p
  | none => spec_scan root ex listdir file_id

/-! ## Supporting facts for the PDF compositor claims -/

/-- The concrete compositor input refuting the unconditional `max_scale`
bound: scale-up disallowed, `max_scale` option `0.5`, manual scale `100%`,
a 1340px-wide image on a default 8.5in/150dpi page. -/
def c5cx : ComposeInput where
  page_width_in := 85/10
  page_height_in := 11
  margin_in := 1/4
  dpi := 150
  manual_scale := manual_scale_of 100
  allow_scale_up := false
  max_scale := max_scale_of (1/2)
  image_w := 1340
  image_h := 2000

/-! ## Concrete inputs used by counterexamples and witnesses -/

/-- A sample record used to exhibit a backend whose listing changes between
invocations. -/
def sampleRecord : FileRecord where
  public_id := "newsletters/a.html".toList
  filename := "a.html".toList
  display_name := "a.html".toList
  size := 10
  created_at := 5
  format := "html".toList
  secure_url := "/static/files/newsletters/a.html".toList

/-- A backend returning an empty listing on its first invocation and one
record afterwards. -/
def c1Backend : Nat → List FileRecord := fun n => if n = 0 then [] else [sampleRecord]

/-- A cloud resource with the given creation time. -/
def c8res (n : Nat) : CloudResource where
  public_id := "x.html".toList
  bytes := 0
  created_at := n
  format := "html".toList
  secure_url := []

def root0 : List (List Char) := ["files".toList]

def fs0 : FS := [(["files".toList, "other.html".toList], [7])]

def root1 : List (List Char) := ["app".toList, "files".toList]

def fs1 : FS := [(["app".toList, "files".toList, "a b.html".toList], [1])]

theorem required_le_final (i : ComposeInput) : required_height i ≤ final_page_height i := by
  unfold final_page_height
  split <;> omega

theorem margin_px_nonneg (i : ComposeInput) : 0 ≤ margin_px i := le_max_left _ _

/-- C5 (corrected): the final scale is `max(0.01, min(max_allowed, desired))`,
positive, and never exceeds the width-fitting ceiling; it is bounded by
`max_scale` when scale-up is allowed and by `1.0` when it is not, and the
manual request is clamped in the same way rather than erroring.  The
hypothesis reflects the caller's `max_scale = max(0.1, ...)` clamp
(pdf.py line 119). -/
theorem c5_scale_clamp (i : ComposeInput) (hms : (1:ℚ)/10 ≤ i.max_scale) :
    scaleFinal i = max (1/100) (min (max_allowed i) (desiredScale i)) ∧
    0 < scaleFinal i ∧
    scaleFinal i ≤ widthFit i ∧
    (i.allow_scale_up = true → scaleFinal i ≤ i.max_scale) ∧
    (i.allow_scale_up = false → scaleFinal i ≤ 1) ∧
    (i.allow_scale_up = true → desiredScale i ≤ i.max_scale) ∧
    (i.allow_scale_up = false → desiredScale i ≤ 1) := by
  have hw : (1:ℚ)/100 ≤ widthFit i := le_max_left _ _
  have hma : max_allowed i ≤ widthFit i := by
    unfold max_allowed; split <;> exact min_le_left _ _
  refine ⟨rfl, ?_, ?_, ?_, ?_, ?_, ?_⟩
  · exact lt_of_lt_of_le (by norm_num) (le_max_left _ _)
  · exact max_le hw (le_trans (min_le_left _ _) hma)
  · intro h
    refine max_le (by linarith) (le_trans (min_le_left _ _) ?_)
    unfold max_allowed
    rw [if_pos h]
    exact min_le_right _ _
  · intro h
    refine max_le (by norm_num) (le_trans (min_le_left _ _) ?_)
    unfold max_allowed
    rw [if_neg (by simp [h])]
    exact min_le_right _ _
  · intro h
    unfold desiredScale
    rw [if_pos h]
    exact min_le_right _ _
  · intro h
    unfold desiredScale
    rw [if_neg (by simp [h])]
    exact min_le_right _ _

/-- C5 counterexample: with scale-up disallowed and `max_scale = 0.5` the
final scale is `1201/1340 > 0.5`, exceeding `max_scale`, so the unconditional
"never exceeds ... max_scale" part of the claim is false of the code. -/
theorem c5cx_scaleFinal : scaleFinal c5cx = 1201/1340 := by
  have hpw : page_width_px c5cx = 1275 := by
    rw [page_width_px,
      show (c5cx.page_width_in * (c5cx.dpi : ℚ)) = 1275 by norm_num [c5cx]]
    norm_num [pyInt]
  have hm : margin_px c5cx = 37 := by
    rw [margin_px, show (c5cx.margin_in * (c5cx.dpi : ℚ)) = 75/2 by norm_num [c5cx]]
    norm_num [pyInt]
  have hc : content_width c5cx = 1201 := by
    rw [content_width, hpw, hm]
    norm_num
  have hwf : widthFit c5cx = 1201/1340 := by
    rw [widthFit, hc]
    norm_num [c5cx]
  have hd : desiredScale c5cx = 1 := by
    rw [desiredScale]
    norm_num [c5cx, manual_scale_of]
  rw [scaleFinal, max_allowed, hd, hwf]
  norm_num [c5cx]

theorem c5cx_max_scale : c5cx.max_scale = 1/2 := by
  norm_num [c5cx, max_scale_of]

theorem c5_counterexample :
    c5cx.max_scale = max_scale_of (1/2) ∧
    c5cx.manual_scale = manual_scale_of 100 ∧
    c5cx.allow_scale_up = false ∧
    c5cx.max_scale < scaleFinal c5cx := by
  refine ⟨rfl, rfl, rfl, ?_⟩
  rw [c5cx_scaleFinal, c5cx_max_scale]
  norm_num

/-- Witness for `c5_scale_clamp` at the concrete input `c5cx`. -/
theorem c5_scale_clamp_witness :
    (1:ℚ)/10 ≤ c5cx.max_scale ∧ 0 < scaleFinal c5cx ∧
    scaleFinal c5cx ≤ widthFit c5cx ∧ scaleFinal c5cx ≤ 1 := by
  have h : (1:ℚ)/10 ≤ c5cx.max_scale := by
    rw [c5cx_max_scale]
    norm_num
  obtain ⟨-, h2, h3, -, h5, -, -⟩ := c5_scale_clamp c5cx h
  exact ⟨h, h2, h3, h5 rfl⟩

/-- C6 (confirmed): when the resized height plus twice the margin exceeds
the configured page height, the output page height becomes exactly that
required height, and otherwise stays the configured height; the paste offset
keeps the whole scaled image (plus its margin band) inside the canvas, so
content is never cropped vertically. -/
theorem c6_page_growth (i : ComposeInput) :
    (required_height i > page_height_px i → final_page_height i = required_height i) ∧
    (required_height i ≤ page_height_px i → final_page_height i = page_height_px i) ∧
    margin_px i ≤ offset_y i ∧
    offset_y i + scaled_h i + margin_px i ≤ final_page_height i := by
  have hreq : required_height i ≤ final_page_height i := required_le_final i
  have hsh : scaled_h i + margin_px i * 2 ≤ final_page_height i := hreq
  refine ⟨?_, ?_, ?_, ?_⟩
  · intro h
    unfold final_page_height
    rw [if_pos h]
  · intro h
    unfold final_page_height
    rw [if_neg (by omega)]
  · exact le_max_left _ _
  · have hB : margin_px i ≤ final_page_height i - scaled_h i - margin_px i := by omega
    have : offset_y i ≤ final_page_height i - scaled_h i - margin_px i := by
      unfold offset_y
      exact max_le hB (le_trans (min_le_right _ _) le_rfl)
    omega

/-! ## Claims about listing, caching and deletion -/

/-- C1 counterexample: the configured TTL is positive, yet a second
`list_files` call with the same prefix invokes the backend again (the
invocation count reaches 2) and can return a different result — there is no
cache in `StorageManager`. -/
theorem c1_counterexample :
    0 < Config.STORAGE_CACHE_TTL ∧
    (StorageManager.list_files c1Backend
      (StorageManager.list_files c1Backend 0 "newsletters/".toList).2
      "newsletters/".toList).2 = 2 ∧
    (StorageManager.list_files c1Backend 0 "newsletters/".toList).1 ≠
      (StorageManager.list_files c1Backend
        (StorageManager.list_files c1Backend 0 "newsletters/".toList).2
        "newsletters/".toList).1 := by
  refine ⟨by decide, rfl, by decide⟩

/-- C1 (corrected): `StorageManager.list_files` delegates unconditionally —
every call invokes the backend exactly once and returns its result verbatim;
two calls agree exactly when the backend itself returns the same listing on
both invocations.  `Config.STORAGE_CACHE_TTL` is defined but read by no
code. -/
theorem c1_no_cache (backend : Nat → List FileRecord) (calls : Nat) (p : List Char) :
    (StorageManager.list_files backend calls p).1 = backend calls ∧
    (StorageManager.list_files backend calls p).2 = calls + 1 ∧
    ((StorageManager.list_files backend
        (StorageManager.list_files backend calls p).2 p).1 =
      (StorageManager.list_files backend calls p).1 ↔
        backend (calls + 1) = backend calls) :=
  ⟨rfl, rfl, Iff.rfl⟩

/-- C8 counterexample: when the Cloudinary API returns resources oldest
first, `CloudinaryStorage.list_files` returns them in that same order — not
sorted newest first. -/
theorem c8_counterexample :
    ¬ List.Pairwise (fun a b : FileRecord => b.created_at ≤ a.created_at)
      (CloudinaryStorage.list_files [c8res 0, c8res 5]) := by
  decide

/-- C8 (corrected): `LocalStorage.list_files` does return its records sorted
descending by `created_at` (newest first, for every prefix and walk result);
`CloudinaryStorage.list_files` instead preserves the API response order
without sorting. -/
theorem c8_sort_behaviour :
    (∀ walk : List WalkEntry,
      List.Pairwise (fun a b : FileRecord => b.created_at ≤ a.created_at)
        (LocalStorage.list_files walk)) ∧
    (∀ rs : List CloudResource,
      CloudinaryStorage.list_files rs = rs.map mkCloudRecord) := by
  constructor
  · intro walk
    have h := @List.sorted_mergeSort _
      (fun a b : FileRecord => decide (b.created_at ≤ a.created_at))
      (fun a b c h1 h2 => by
        simp only [decide_eq_true_iff] at h1 h2 ⊢
        omega)
      (fun a b => by
        simp only [Bool.or_eq_true, decide_eq_true_iff]
        omega)
      (walk.map mkLocalRecord)
    exact h.imp fun hab => of_decide_eq_true hab
  · intro rs
    rfl

/-- C10 (confirmed): when no candidate resolution and no directory-scan
match finds an existing file, `LocalStorage.delete` returns `False` and the
stored files are unchanged. -/
theorem c10_delete_unresolved (root : List (List Char)) (fs : FS) (fid : List Char)
    (h : resolve_existing_path root (pathExists root fs) (listdirFS fs) fid = none) :
    LocalStorage.delete root fs fid = (false, fs) := by
  unfold LocalStorage.delete
  rw [h]

/-- Witness for `c10_delete_unresolved`: a concrete store holding one other
file, and an id that resolves to nothing. -/
theorem c10_delete_unresolved_witness :
    resolve_existing_path root0 (pathExists root0 fs0) (listdirFS fs0)
      "missing.html".toList = none ∧
    LocalStorage.delete root0 fs0 "missing.html".toList = (false, fs0) :=
  ⟨by decide, c10_delete_unresolved root0 fs0 "missing.html".toList (by decide)⟩

/-! ## Supporting lemmas for the safe-join claim -/

theorem commonSegs_eq_left_iff (a b : List (List Char)) :
    commonSegs a b = a ↔ a <+: b := by
  induction a generalizing b with
  | nil =>
    simp [commonSegs]
  | cons x as ih =>
    cases b with
    | nil =>
      constructor
      · intro h
        exact absurd h (by simp [commonSegs])
      · intro h
        exact absurd (List.eq_nil_of_prefix_nil h) (by simp)
    | cons y bs =>
      rw [show commonSegs (x :: as) (y :: bs)
        = if x = y then x :: commonSegs as bs else [] from rfl]
      by_cases hxy : x = y
      · subst hxy
        rw [if_pos rfl, List.cons_prefix_cons]
        constructor
        · intro h
          exact ⟨rfl, (ih bs).mp (by injection h)⟩
        · intro h
          rw [(ih bs).mpr h.2]
      · rw [if_neg hxy, List.cons_prefix_cons]
        constructor
        · intro h
          exact absurd h.symm (by simp)
        · intro h
          exact absurd h.1 hxy

theorem foldl_normStep_good (segs : List (List Char)) (acc : List (List Char))
    (h : ∀ s ∈ acc, ¬(s = [] ∨ s = ['.'])) :
    ∀ s ∈ segs.foldl normStep acc, ¬(s = [] ∨ s = ['.']) := by
  induction segs generalizing acc with
  | nil => exact h
  | cons t ts ih =>
    refine ih (normStep acc t) ?_
    intro s hs
    by_cases h1 : t = [] ∨ t = ['.']
    · unfold normStep at hs
      rw [if_pos h1] at hs
      exact h s hs
    · by_cases h2 : t = ['.', '.']
      · unfold normStep at hs
        rw [if_neg h1, if_pos h2] at hs
        exact h s ((List.dropLast_sublist _).subset hs)
      · unfold normStep at hs
        rw [if_neg h1, if_neg h2] at hs
        rcases List.mem_append.mp hs with hs | hs
        · exact h s hs
        · simp only [List.mem_singleton] at hs
          subst hs
          exact h1

theorem pathResolution_good (root : List (List Char)) (rel : List Char) :
    ∀ s ∈ pathResolution root rel, ¬(s = [] ∨ s = ['.']) := by
  unfold pathResolution normSegs
  split <;> exact foldl_normStep_good _ [] (by simp)

theorem goodFilter_eq_self (l : List (List Char))
    (h : ∀ s ∈ l, ¬(s = [] ∨ s = ['.'])) :
    (l.filter fun s => !(s = [] ∨ s = ['.'] : Bool)) = l := by
  rw [List.filter_eq_self]
  intro s hs
  simpa using h s hs

/-- C3 (confirmed): `_safe_join` fails (raises `ValueError`, here `none`)
exactly for the relative paths whose lexical absolute resolution — including
`..` traversal and absolute-path injection — falls outside the storage root,
and returns that joined absolute resolution for every path inside the
root. -/
theorem c3_safe_join (root : List (List Char)) (rel : List Char)
    (hroot : normalizedRoot root = true) :
    (safe_join root rel = none ↔ ¬ root <+: pathResolution root rel) ∧
    (root <+: pathResolution root rel →
      safe_join root rel = some (pathResolution root rel)) := by
  have hgr : ∀ s ∈ root, ¬(s = [] ∨ s = ['.']) := by
    intro s hs
    have h1 := List.all_eq_true.mp hroot s hs
    simp only [Bool.not_eq_eq_eq_not, Bool.not_true, decide_eq_false_iff_not] at h1
    tauto
  have hfr := goodFilter_eq_self root hgr
  have hfa := goodFilter_eq_self _ (pathResolution_good root rel)
  have hkey : safe_join root rel =
      if root <+: pathResolution root rel then some (pathResolution root rel)
      else none := by
    simp only [safe_join, commonpath, hfr, hfa]
    exact if_congr (commonSegs_eq_left_iff root _) rfl rfl
  rw [hkey]
  by_cases hp : root <+: pathResolution root rel
  · rw [if_pos hp]
    exact ⟨⟨fun h => absurd h (by simp), fun h => absurd hp h⟩, fun _ => rfl⟩
  · rw [if_neg hp]
    exact ⟨⟨fun _ => hp, fun _ => rfl⟩, fun h => absurd h hp⟩

/-- Witness for `c3_safe_join`: over a concrete root, the traversal
`"../outside.html"` is rejected and a benign path is resolved and
returned. -/
theorem c3_safe_join_witness :
    normalizedRoot root1 = true ∧
    safe_join root1 "../outside.html".toList = none ∧
    safe_join root1 "2025/x.html".toList
      = some (pathResolution root1 "2025/x.html".toList) := by
  refine ⟨by decide, ?_, ?_⟩
  · exact (c3_safe_join root1 "../outside.html".toList (by decide)).1.mpr (by decide)
  · exact (c3_safe_join root1 "2025/x.html".toList (by decide)).2 (by decide)

/-! ## Supporting lemmas for the candidate-resolution claim -/

theorem replaceChar_id (a b : Char) (l : List Char) (h : a ∉ l) :
    replaceChar a b l = l := by
  unfold replaceChar
  conv_rhs => rw [← List.map_id l]
  refine List.map_congr_left fun c hc => ?_
  have hne : c ≠ a := fun hca => h (hca ▸ hc)
  rw [if_neg hne]
  rfl

theorem firstExisting_cons (root : List (List Char)) (ex : List (List Char) → Bool)
    (c : List Char) (rest : List (List Char)) :
    firstExisting root ex (c :: rest)
      = match checkOne root ex c with
        | some p => some p
        | none => firstExisting root ex rest := by
  rw [show firstExisting root ex (c :: rest)
      = match safe_join root c with
        | some p => if ex p then some p else firstExisting root ex rest
        | none => firstExisting root ex rest from rfl]
  unfold checkOne
  cases safe_join root c with
  | none => rfl
  | some p =>
    by_cases hex : ex p
    · simp [hex]
    · simp [hex]

theorem firstExisting_append (root : List (List Char)) (ex : List (List Char) → Bool)
    (l1 l2 : List (List Char)) :
    firstExisting root ex (l1 ++ l2)
      = match firstExisting root ex l1 with
        | some p => some p
        | none => firstExisting root ex l2 := by
  induction l1 with
  | nil => simp [firstExisting]
  | cons c t ih =>
    rw [List.cons_append, firstExisting_cons, firstExisting_cons]
    cases checkOne root ex c with
    | none => exact ih
    | some p => rfl

theorem checkOne_none_of_firstExisting_none (root : List (List Char))
    (ex : List (List Char) → Bool) (l : List (List Char)) (x : List Char)
    (h : firstExisting root ex l = none) (hx : x ∈ l) :
    checkOne root ex x = none := by
  induction l with
  | nil => cases hx
  | cons c t ih =>
    rw [firstExisting_cons] at h
    cases hc : checkOne root ex c with
    | some p =>
      rw [hc] at h
      cases h
    | none =>
      rw [hc] at h
      rcases List.mem_cons.mp hx with rfl | hx
      · exact hc
      · exact ih h hx

theorem firstExisting_mem_skip (root : List (List Char)) (ex : List (List Char) → Bool)
    (l m : List (List Char)) (x : List Char) (hx : x ∈ l) :
    firstExisting root ex (l ++ x :: m) = firstExisting root ex (l ++ m) := by
  rw [firstExisting_append, firstExisting_append]
  cases hfe : firstExisting root ex l with
  | some p => rfl
  | none =>
    rw [firstExisting_cons, checkOne_none_of_firstExisting_none root ex l x hfe hx]

theorem firstExisting_step (root : List (List Char)) (ex : List (List Char) → Bool)
    (P M : List (List Char)) (x : List Char) (cond : Bool)
    (hc : cond = true → x ∈ P) :
    firstExisting root ex ((if cond then P else P ++ [x]) ++ M)
      = firstExisting root ex (P ++ x :: M) := by
  cases cond with
  | true =>
    rw [if_pos rfl]
    exact (firstExisting_mem_skip root ex P M x (hc rfl)).symm
  | false =>
    rw [if_neg (by simp), List.append_assoc, List.singleton_append]

theorem utf8EncodeChar_ne_nil (c : Char) : utf8EncodeChar c ≠ [] := by
  simp only [utf8EncodeChar]
  split
  · simp
  · split
    · simp
    · split <;> simp

theorem quote_ne_nil (l : List Char) (h : l ≠ []) : quote l ≠ [] := by
  cases l with
  | nil => exact absurd rfl h
  | cons c t =>
    unfold quote
    rw [List.flatMap_cons]
    intro hq
    rcases List.append_eq_nil.mp hq with ⟨h1, -⟩
    by_cases hs : isQuoteSafe c
    · rw [if_pos hs] at h1
      cases h1
    · rw [if_neg hs] at h1
      obtain ⟨b, bs, hbs⟩ : ∃ b bs, utf8EncodeChar c = b :: bs := by
        cases henc : utf8EncodeChar c with
        | nil => exact absurd henc (utf8EncodeChar_ne_nil c)
        | cons b bs => exact ⟨b, bs, rfl⟩
      rw [hbs, List.flatMap_cons] at h1
      cases (List.append_eq_nil.mp h1).1

theorem final_take_ne_nil (de s : List Char) :
    (if s.isEmpty then DEFAULT_BASENAME ++ de else s).take 255 ≠ [] := by
  rw [ne_eq, List.take_eq_nil_iff]
  push_neg
  refine ⟨by omega, ?_⟩
  cases hs : s.isEmpty with
  | false =>
    rw [if_neg (by simp [hs])]
    intro h
    rw [h] at hs
    cases hs
  | true =>
    rw [if_pos rfl]
    intro hc
    exact absurd (List.append_eq_nil.mp hc).1 (by decide)

theorem sanitize_filename_ne_nil (x de : List Char) : sanitize_filename x de ≠ [] :=
  final_take_ne_nil de _

theorem joinSlash_snoc_ne_nil (l : List (List Char)) (x : List Char) (hx : x ≠ []) :
    joinSlash (l ++ [x]) ≠ [] := by
  cases l with
  | nil => simpa [joinSlash]
  | cons p t =>
    cases htx : t ++ [x] with
    | nil => exact absurd htx (by simp)
    | cons q rest =>
      rw [List.cons_append, htx]
      simp [joinSlash]

theorem sanitize_relative_path_ne_nil (fid : List Char) :
    sanitize_relative_path fid ≠ [] := by
  simp only [sanitize_relative_path]
  split
  · exact sanitize_filename_ne_nil _ _
  · exact joinSlash_snoc_ne_nil _ _ (sanitize_filename_ne_nil _ _)

theorem find?_congr {α : Type} (p q : α → Bool) (h : ∀ x, p x = q x) (l : List α) :
    l.find? p = l.find? q := by
  induction l with
  | nil => rfl
  | cons x t ih =>
    cases hqx : q x <;> simp [List.find?_cons, h x, hqx, ih]

/-- The exact-or-sanitized match of the source scan equals the
sanitized-only match of the specification, since exact equality implies
equality of the sanitized names. -/
theorem find?_scan_eq (tg : List Char) (entries : List (List Char)) :
    (entries.find? fun actual =>
        actual = tg ∨ sanitize_filename actual = sanitize_filename tg)
      = entries.find? fun actual =>
          sanitize_filename actual = sanitize_filename tg := by
  refine find?_congr _ _ (fun a => ?_) entries
  refine decide_eq_decide.mpr ⟨?_, Or.inr⟩
  rintro (rfl | h)
  · rfl
  · exact h

theorem firstExisting_step0 (root : List (List Char)) (ex : List (List Char) → Bool)
    (P : List (List Char)) (x : List Char) (cond : Bool)
    (hc : cond = true → x ∈ P) :
    firstExisting root ex (if cond then P else P ++ [x])
      = firstExisting root ex (P ++ [x]) := by
  cases cond with
  | true =>
    rw [if_pos rfl]
    have h := firstExisting_mem_skip root ex P [] x (hc rfl)
    rw [List.append_nil] at h
    exact h.symm
  | false => rw [if_neg (by simp)]

theorem firstExisting_candidates (root : List (List Char)) (ex : List (List Char) → Bool)
    (n d qd s qs : List Char)
    (h3 : qd.isEmpty = true → qd = d)
    (h5 : qs.isEmpty = false) :
    firstExisting root ex
      (let c1 := [n]
       let c2 := if c1.contains d then c1 else c1 ++ [d]
       let c3 := if qd.isEmpty || c2.contains qd then c2 else c2 ++ [qd]
       let c4 := if c3.contains s then c3 else c3 ++ [s]
       if qs.isEmpty || c4.contains qs then c4 else c4 ++ [qs])
      = firstExisting root ex [n, d, qd, s, qs] := by
  simp only []
  set c2 := if [n].contains d then [n] else [n] ++ [d] with h2
  set c3 := if qd.isEmpty || c2.contains qd then c2 else c2 ++ [qd] with hc3
  set c4 := if c3.contains s then c3 else c3 ++ [s] with hc4
  have hd_mem : d ∈ c2 := by
    rw [h2]
    by_cases h : [n].contains d
    · rw [if_pos h]
      exact List.mem_of_elem_eq_true h
    · rw [if_neg h]
      simp
  rw [firstExisting_step0 root ex c4 qs _ (fun hor => by
    rcases Bool.or_eq_true _ _ |>.mp hor with h | h
    · rw [h5] at h
      cases h
    · exact List.mem_of_elem_eq_true h)]
  rw [hc4, firstExisting_step root ex c3 [qs] s _ (fun h => List.mem_of_elem_eq_true h)]
  rw [hc3, firstExisting_step root ex c2 (s :: [qs]) qd _ (fun hor => by
    rcases Bool.or_eq_true _ _ |>.mp hor with h | h
    · rw [h3 h]
      exact hd_mem
    · exact List.mem_of_elem_eq_true h)]
  rw [h2, firstExisting_step root ex [n] (qd :: s :: [qs]) d _ (fun h =>
    List.mem_of_elem_eq_true h)]
  rfl

/-- C4 (confirmed): the local backend's resolution tries exactly the
specification's candidate order — raw id, URL-decoded, URL-re-encoded,
fully sanitized, sanitized-then-re-encoded — returning the first candidate
that safe-joins and exists, and otherwise falls back to scanning the target
directory for the first entry whose sanitized name equals the sanitized
target name.  (The source skips duplicate or empty candidates and also
accepts an exact directory-entry match; neither changes the result.)  The
hypothesis is the data-model invariant that ids are forward-slash paths. -/
theorem c4_resolution_order (root : List (List Char)) (ex : List (List Char) → Bool)
    (listdir : List (List Char) → Option (List (List Char))) (fid : List Char)
    (hbs : '\\' ∉ fid) :
    resolve_existing_path root ex listdir fid = spec_resolution root ex listdir fid := by
  have hn : replaceChar '\\' '/' fid = fid := replaceChar_id _ _ _ hbs
  have he' : (if (unquote fid).isEmpty then ([] : List Char) else quote (unquote fid))
      = quote (unquote fid) := by
    cases hde : (unquote fid).isEmpty with
    | false => rw [if_neg (by simp [hde])]
    | true =>
      rw [if_pos rfl, List.isEmpty_iff.mp hde]
      rfl
  have hse' : (if (sanitize_relative_path fid).isEmpty then ([] : List Char)
      else quote (sanitize_relative_path fid)) = quote (sanitize_relative_path fid) := by
    rw [if_neg]
    simp [List.isEmpty_iff, sanitize_relative_path_ne_nil fid]
  have h3 : (quote (unquote fid)).isEmpty = true → quote (unquote fid) = unquote fid := by
    intro h
    have hqd : quote (unquote fid) = [] := List.isEmpty_iff.mp h
    have hd : unquote fid = [] := by
      by_contra hne
      exact quote_ne_nil _ hne hqd
    rw [hqd, hd]
  have h5 : (quote (sanitize_relative_path fid)).isEmpty = false := by
    cases hq : (quote (sanitize_relative_path fid)).isEmpty with
    | false => rfl
    | true =>
      exact absurd (List.isEmpty_iff.mp hq)
        (quote_ne_nil _ (sanitize_relative_path_ne_nil fid))
  have hcand : firstExisting root ex (candidate_ids fid)
      = firstExisting root ex (spec_candidates fid) := by
    simp only [candidate_ids, hn, he', hse', spec_candidates]
    exact firstExisting_candidates root ex fid (unquote fid) (quote (unquote fid))
      (sanitize_relative_path fid) (quote (sanitize_relative_path fid)) h3 h5
  have hscan : find_file_in_directory root ex listdir fid
      = spec_scan root ex listdir fid := by
    simp only [find_file_in_directory, spec_scan, hn, find?_scan_eq]
  unfold resolve_existing_path spec_resolution
  rw [hcand, hscan]

/-- Witness for `c4_resolution_order`: a concrete id with a percent-escape,
resolved against a store holding the decoded name. -/
theorem c4_resolution_order_witness :
    ('\\' ∉ "a%20b.html".toList) ∧
    resolve_existing_path root1 (pathExists root1 fs1) (listdirFS fs1)
        "a%20b.html".toList
      = spec_resolution root1 (pathExists root1 fs1) (listdirFS fs1)
        "a%20b.html".toList ∧
    resolve_existing_path root1 (pathExists root1 fs1) (listdirFS fs1)
        "a%20b.html".toList
      = some ["app".toList, "files".toList, "a b.html".toList] :=
  ⟨by decide, c4_resolution_order _ _ _ _ (by decide), by decide⟩

/-! ## Supporting lemma and theorem for the error-contract claim -/

theorem lookupFile_writeFile (fs : FS) (p : List (List Char)) (c : List Nat) :
    lookupFile (writeFile fs p c) p = some c := by
  unfold lookupFile writeFile
  simp [List.find?_cons]

/-- C7 (confirmed): `download` raises `FileNotFoundError` exactly when the
id resolves to nothing after exhausting every candidate and the directory
scan, and returns the stored bytes exactly when the id resolves to an
existing file; `delete` returns a boolean — `True` exactly when the id
resolved to an existing file — and `save` returns a boolean, with a
reported success meaning the content now sits at the sanitized target path;
neither mutator propagates an exception. -/
theorem c7_error_contract (root : List (List Char)) (fs : FS) (fid : List Char)
    (content : List Nat) :
    (LocalStorage.download root fs fid = Except.error PyErr.fileNotFound ↔
      resolve_existing_path root (pathExists root fs) (listdirFS fs) fid = none) ∧
    (∀ bytesRead : List Nat,
      LocalStorage.download root fs fid = Except.ok bytesRead ↔
      ∃ p, resolve_existing_path root (pathExists root fs) (listdirFS fs) fid = some p ∧
        lookupFile fs p = some bytesRead) ∧
    ((LocalStorage.delete root fs fid).1 = true ↔
      ∃ p, resolve_existing_path root (pathExists root fs) (listdirFS fs) fid = some p ∧
        isFile fs p = true) ∧
    ((LocalStorage.save root fs fid content).1 = true →
      ∃ target, safe_join root (sanitize_relative_path (replaceChar '\\' '/' fid))
          = some target ∧
        lookupFile (LocalStorage.save root fs fid content).2 target = some content) := by
  refine ⟨?_, ?_, ?_, ?_⟩
  · unfold LocalStorage.download
    cases hres : resolve_existing_path root (pathExists root fs) (listdirFS fs) fid with
    | none => simp
    | some p =>
      cases hl : lookupFile fs p with
      | none => simp [hl]
      | some c => simp [hl]
  · intro bytesRead
    unfold LocalStorage.download
    cases hres : resolve_existing_path root (pathExists root fs) (listdirFS fs) fid with
    | none => simp
    | some p =>
      cases hl : lookupFile fs p with
      | none => simp [hl]
      | some c => simp [hl, eq_comm]
  · unfold LocalStorage.delete
    cases hres : resolve_existing_path root (pathExists root fs) (listdirFS fs) fid with
    | none => simp
    | some p =>
      by_cases hf : isFile fs p
      · simp [hf]
      · simp [hf]
  · unfold LocalStorage.save
    cases hsj : safe_join root (sanitize_relative_path (replaceChar '\\' '/' fid)) with
    | none => simp [hsj]
    | some target =>
      simp only [hsj]
      split
      · simp
      · split
        · simp
        · intro h
          exact ⟨target, rfl, lookupFile_writeFile _ _ _⟩

/-- Witness for `c7_error_contract`: over a concrete store, an unresolvable
id makes `download` fail with `FileNotFoundError`, and a successful `save`
leaves the content at the sanitized target path. -/
theorem c7_error_contract_witness :
    LocalStorage.download root0 fs0 "missing.html".toList
      = Except.error PyErr.fileNotFound ∧
    (LocalStorage.save root0 fs0 "2025/new.html".toList [3]).1 = true ∧
    (∃ target,
      safe_join root0 (sanitize_relative_path
        (replaceChar '\\' '/' "2025/new.html".toList)) = some target ∧
      lookupFile (LocalStorage.save root0 fs0 "2025/new.html".toList [3]).2 target
        = some [3]) :=
  ⟨(c7_error_contract root0 fs0 "missing.html".toList []).1.mpr (by decide),
   by decide,
   (c7_error_contract root0 fs0 "2025/new.html".toList [3]).2.2.2 (by decide)⟩

/-! ## Character membership through the sanitizer stages (claims C9 and C2) -/

theorem patternSubAux_mem (bad : Char → Bool) (b : Bool) (l : List Char) :
    ∀ c ∈ patternSubAux bad b l, c = ' ' ∨ (c ∈ l ∧ bad c = false) := by
  induction l generalizing b with
  | nil => simp [patternSubAux]
  | cons x t ih =>
    intro c hc
    unfold patternSubAux at hc
    by_cases hx : bad x
    · rw [if_pos hx] at hc
      cases b with
      | true =>
        rcases ih true c hc with h | h
        · exact Or.inl h
        · exact Or.inr ⟨List.mem_cons_of_mem x h.1, h.2⟩
      | false =>
        rcases List.mem_cons.mp hc with rfl | hc
        · exact Or.inl rfl
        · rcases ih true c hc with h | h
          · exact Or.inl h
          · exact Or.inr ⟨List.mem_cons_of_mem x h.1, h.2⟩
    · rw [if_neg hx] at hc
      rcases List.mem_cons.mp hc with rfl | hc
      · exact Or.inr ⟨List.mem_cons_self _ _, by simpa using hx⟩
      · rcases ih false c hc with h | h
        · exact Or.inl h
        · exact Or.inr ⟨List.mem_cons_of_mem x h.1, h.2⟩

theorem patternSub_mem (bad : Char → Bool) (l : List Char) :
    ∀ c ∈ patternSub bad l, c = ' ' ∨ (c ∈ l ∧ bad c = false) :=
  patternSubAux_mem bad false l

theorem replaceDoubleDot_mem : (l : List Char) →
    ∀ c ∈ replaceDoubleDot l, c = '.' ∨ c ∈ l
  | [] => by simp [replaceDoubleDot]
  | [c] => by simp [replaceDoubleDot]
  | c :: d :: rest => by
    by_cases h : c = '.' ∧ d = '.'
    · simp only [replaceDoubleDot, if_pos h]
      intro x hx
      rcases List.mem_cons.mp hx with rfl | hx
      · exact Or.inl rfl
      · rcases replaceDoubleDot_mem rest x hx with h1 | h1
        · exact Or.inl h1
        · exact Or.inr (by simp [h1])
    · simp only [replaceDoubleDot, if_neg h]
      intro x hx
      rcases List.mem_cons.mp hx with rfl | hx
      · exact Or.inr (List.mem_cons_self _ _)
      · rcases replaceDoubleDot_mem (d :: rest) x hx with h1 | h1
        · exact Or.inl h1
        · exact Or.inr (List.mem_cons_of_mem c h1)

theorem pyStrip_subset (l : List Char) : ∀ c ∈ pyStrip l, c ∈ l := by
  intro c hc
  unfold pyStrip pyRStrip pyLStrip at hc
  have h1 := (List.dropWhile_sublist _).subset (List.mem_reverse.mp hc)
  have h2 := (List.dropWhile_sublist _).subset (List.mem_reverse.mp h1)
  exact h2

theorem filename_allowed_ne_slash (c : Char) (h : isFilenameAllowedChar c = true) :
    c ≠ '/' := by
  intro hc
  subst hc
  exact absurd h (by decide)

theorem folder_allowed_ne_slash (c : Char) (h : isFolderAllowedChar c = true) :
    c ≠ '/' := by
  intro hc
  subst hc
  exact absurd h (by decide)

theorem pyIsAlnum_ne_slash (c : Char) (h : pyIsAlnum c = true) : c ≠ '/' := by
  intro hc
  subst hc
  exact absurd h (by decide)

/-! Small forward composition lemmas: no stage of the sanitizer introduces a
slash. -/

theorem no_slash_ite (P : Prop) [Decidable P] (a b : List Char)
    (ha : '/' ∉ a) (hb : '/' ∉ b) : '/' ∉ (if P then a else b) := by
  split
  · exact ha
  · exact hb

theorem no_slash_append (a b : List Char) (ha : '/' ∉ a) (hb : '/' ∉ b) :
    '/' ∉ a ++ b := by
  intro h
  rcases List.mem_append.mp h with h | h
  · exact ha h
  · exact hb h

theorem no_slash_take (n : Nat) (l : List Char) (h : '/' ∉ l) : '/' ∉ l.take n :=
  fun hm => h ((List.take_sublist _ _).subset hm)

theorem no_slash_pyStrip (l : List Char) (h : '/' ∉ l) : '/' ∉ pyStrip l :=
  fun hm => h (pyStrip_subset _ _ hm)

theorem no_slash_replaceDoubleDot (l : List Char) (h : '/' ∉ l) :
    '/' ∉ replaceDoubleDot l := by
  intro hm
  rcases replaceDoubleDot_mem _ _ hm with h1 | h1
  · cases h1
  · exact h h1

theorem no_slash_patternSub_file (l : List Char) :
    '/' ∉ patternSub (fun c => !(isFilenameAllowedChar c)) l := by
  intro hm
  rcases patternSub_mem _ _ _ hm with h | h
  · cases h
  · have hb := h.2
    simp at hb
    exact filename_allowed_ne_slash _ hb rfl

theorem no_slash_patternSub_folder (l : List Char) :
    '/' ∉ patternSub (fun c => !(isFolderAllowedChar c)) l := by
  intro hm
  rcases patternSub_mem _ _ _ hm with h | h
  · cases h
  · have hb := h.2
    simp at hb
    exact folder_allowed_ne_slash _ hb rfl

theorem no_slash_patternSub (bad : Char → Bool) (l : List Char) (h : '/' ∉ l) :
    '/' ∉ patternSub bad l := by
  intro hm
  rcases patternSub_mem _ _ _ hm with h1 | h1
  · cases h1
  · exact h h1.1

theorem no_slash_cons_dot (l : List Char) (h : '/' ∉ l) : '/' ∉ '.' :: l := by
  intro hm
  rcases List.mem_cons.mp hm with h1 | h1
  · cases h1
  · exact h h1

theorem no_slash_filter_alnum (l : List Char) : '/' ∉ l.filter pyIsAlnum :=
  fun hm => pyIsAlnum_ne_slash _ (List.mem_filter.mp hm).2 rfl

theorem no_slash_DEFAULT_BASENAME : '/' ∉ (DEFAULT_BASENAME : List Char) := by
  decide

theorem sanitize_filename_no_slash (x de : List Char) (hde : '/' ∉ de) :
    '/' ∉ sanitize_filename x de := by
  simp only [sanitize_filename]
  exact no_slash_take _ _ (no_slash_ite _ _ _
    (no_slash_append _ _ no_slash_DEFAULT_BASENAME hde)
    (no_slash_pyStrip _ (no_slash_replaceDoubleDot _ (no_slash_append _ _
      (no_slash_ite _ _ _ no_slash_DEFAULT_BASENAME
        (no_slash_pyStrip _ (no_slash_patternSub _ _ (no_slash_patternSub_file _))))
      (no_slash_ite _ _ _ hde
        (no_slash_ite _ _ _ hde (no_slash_cons_dot _ (no_slash_filter_alnum _))))))))

theorem sanitize_folder_segment_no_slash (seg : List Char) :
    '/' ∉ sanitize_folder_segment seg := by
  simp only [sanitize_folder_segment]
  refine no_slash_take _ _ (no_slash_ite _ _ _ (by decide) ?_)
  exact no_slash_pyStrip _ (no_slash_patternSub _ _ (no_slash_patternSub_folder _))

theorem folder_final_take_ne_nil (s : List Char) :
    (if s.isEmpty then "folder".toList else s).take 120 ≠ [] := by
  rw [ne_eq, List.take_eq_nil_iff]
  push_neg
  refine ⟨by omega, ?_⟩
  cases hs : s.isEmpty with
  | false =>
    rw [if_neg (by simp [hs])]
    intro h
    rw [h] at hs
    cases hs
  | true =>
    rw [if_pos rfl]
    decide

theorem sanitize_folder_segment_ne_nil (seg : List Char) :
    sanitize_folder_segment seg ≠ [] :=
  folder_final_take_ne_nil _

/-! ## Splitting the joined path back into segments (claim C9) -/

theorem pySplit_ne_nil (sep : Char) (l : List Char) : pySplit sep l ≠ [] := by
  cases l with
  | nil => simp [pySplit]
  | cons c rest =>
    rw [show pySplit sep (c :: rest)
      = match pySplit sep rest with
        | h :: t => if c = sep then [] :: h :: t else (c :: h) :: t
        | [] => [[c]] from rfl]
    cases pySplit sep rest with
    | nil => simp
    | cons a t =>
      show ¬(if c = sep then [] :: a :: t else (c :: a) :: t) = []
      split <;> simp

theorem pySplit_no_sep (sep : Char) (l : List Char) (h : sep ∉ l) :
    pySplit sep l = [l] := by
  induction l with
  | nil => rfl
  | cons c rest ih =>
    have hc : c ≠ sep := fun hc => h (hc ▸ List.mem_cons_self _ _)
    have hrest : sep ∉ rest := fun hm => h (List.mem_cons_of_mem _ hm)
    rw [show pySplit sep (c :: rest)
      = match pySplit sep rest with
        | hh :: t => if c = sep then [] :: hh :: t else (c :: hh) :: t
        | [] => [[c]] from rfl, ih hrest]
    simp [hc]

theorem pySplit_sep_cons (sep : Char) (t : List Char) :
    pySplit sep (sep :: t) = [] :: pySplit sep t := by
  rw [show pySplit sep (sep :: t)
    = match pySplit sep t with
      | h :: u => if sep = sep then [] :: h :: u else (sep :: h) :: u
      | [] => [[sep]] from rfl]
  cases h : pySplit sep t with
  | nil => exact absurd h (pySplit_ne_nil sep t)
  | cons a u => simp

theorem pySplit_append_sep (sep : Char) (p t : List Char) (hp : sep ∉ p) :
    pySplit sep (p ++ sep :: t) = p :: pySplit sep t := by
  induction p with
  | nil => simpa using pySplit_sep_cons sep t
  | cons c p' ih =>
    have hc : c ≠ sep := fun hcc => hp (hcc ▸ List.mem_cons_self _ _)
    have hp' : sep ∉ p' := fun hm => hp (List.mem_cons_of_mem _ hm)
    rw [List.cons_append,
      show pySplit sep (c :: (p' ++ sep :: t))
        = match pySplit sep (p' ++ sep :: t) with
          | h :: u => if c = sep then [] :: h :: u else (c :: h) :: u
          | [] => [[c]] from rfl,
      ih hp']
    simp [hc]

theorem segments_joinSlash (pieces : List (List Char)) (hne : pieces ≠ [])
    (hall : ∀ p ∈ pieces, p ≠ [] ∧ '/' ∉ p) :
    (pySplit '/' (joinSlash pieces)).filter (fun p => !p.isEmpty) = pieces := by
  induction pieces with
  | nil => exact absurd rfl hne
  | cons p rest ih =>
    cases rest with
    | nil =>
      have hp := hall p (List.mem_cons_self _ _)
      rw [show joinSlash [p] = p from rfl, pySplit_no_sep '/' p hp.2]
      simp [List.isEmpty_iff, hp.1]
    | cons q rest' =>
      have hp := hall p (List.mem_cons_self _ _)
      rw [show joinSlash (p :: q :: rest') = p ++ '/' :: joinSlash (q :: rest') from rfl,
        pySplit_append_sep '/' p _ hp.2]
      rw [List.filter_cons]
      rw [if_pos (by simpa [List.isEmpty_iff] using hp.1)]
      rw [ih (by simp) (fun r hr => hall r (List.mem_cons_of_mem _ hr))]

set_option maxHeartbeats 1000000 in
/-- C9 (confirmed): `sanitize_relative_path` maps the final segment through
the filename rule and every intermediate segment through the folder rule,
and the output splits back into exactly that many segments in the same
order.  Segments are the non-empty parts of the slash-normalized path. -/
theorem c9_relative_path_segments (fid : List Char) (parts : List (List Char))
    (hparts : parts = (pySplit '/' (replaceChar '\\' '/' fid)).filter (fun p => !p.isEmpty))
    (hne : parts ≠ []) :
    (pySplit '/' (sanitize_relative_path fid)).filter (fun p => !p.isEmpty)
      = parts.dropLast.map sanitize_folder_segment
        ++ [sanitize_filename (parts.getLast hne)] ∧
    ((pySplit '/' (sanitize_relative_path fid)).filter (fun p => !p.isEmpty)).length
      = parts.length := by
  subst hparts
  have hform : sanitize_relative_path fid
      = joinSlash ((((pySplit '/' (replaceChar '\\' '/' fid)).filter
            (fun p => !p.isEmpty)).dropLast.map sanitize_folder_segment)
        ++ [sanitize_filename (((pySplit '/' (replaceChar '\\' '/' fid)).filter
            (fun p => !p.isEmpty)).getLast hne)]) := by
    simp only [sanitize_relative_path]
    rw [dif_neg hne]
  have hsegs : (pySplit '/' (sanitize_relative_path fid)).filter (fun p => !p.isEmpty)
      = (((pySplit '/' (replaceChar '\\' '/' fid)).filter
            (fun p => !p.isEmpty)).dropLast.map sanitize_folder_segment)
        ++ [sanitize_filename (((pySplit '/' (replaceChar '\\' '/' fid)).filter
            (fun p => !p.isEmpty)).getLast hne)] := by
    rw [hform]
    refine segments_joinSlash _ (by simp) ?_
    intro r hr
    rcases List.mem_append.mp hr with hr | hr
    · rcases List.mem_map.mp hr with ⟨seg, -, rfl⟩
      exact ⟨sanitize_folder_segment_ne_nil seg, sanitize_folder_segment_no_slash seg⟩
    · have heq : r = sanitize_filename (((pySplit '/' (replaceChar '\\' '/' fid)).filter
          (fun p => !p.isEmpty)).getLast hne) := List.mem_singleton.mp hr
      rw [heq]
      exact ⟨sanitize_filename_ne_nil _ _, sanitize_filename_no_slash _ _ (by decide)⟩
  refine ⟨hsegs, ?_⟩
  rw [hsegs]
  have hne' : ((pySplit '/' (replaceChar '\\' '/' fid)).filter
      (fun p => !p.isEmpty)).length ≠ 0 :=
    fun h0 => hne (List.length_eq_zero.mp h0)
  simp only [List.length_append, List.length_map, List.length_dropLast,
    List.length_singleton]
  omega

/-- Witness for `c9_relative_path_segments` at a concrete three-segment
path. -/
theorem c9_relative_path_segments_witness :
    (["2025".toList, "Oct ber".toList, "a%20b.html".toList] : List (List Char))
      = (pySplit '/' (replaceChar '\\' '/' "2025/Oct ber/a%20b.html".toList)).filter
        (fun p => !p.isEmpty) ∧
    (pySplit '/' (sanitize_relative_path "2025/Oct ber/a%20b.html".toList)).filter
        (fun p => !p.isEmpty)
      = (["2025".toList, "Oct ber".toList, "a%20b.html".toList]
          : List (List Char)).dropLast.map sanitize_folder_segment
        ++ [sanitize_filename ((["2025".toList, "Oct ber".toList,
            "a%20b.html".toList] : List (List Char)).getLast (by decide))] :=
  ⟨by decide,
   (c9_relative_path_segments "2025/Oct ber/a%20b.html".toList
      ["2025".toList, "Oct ber".toList, "a%20b.html".toList] (by decide) (by decide)).1⟩

/-! ## unquote is the identity on percent-free strings (claim C2) -/

theorem utf8DecodeReplace_cons_ascii (b : Nat) (bs : List Nat) (hb : b < 0x80) :
    utf8DecodeReplace (b :: bs) = Char.ofNat b :: utf8DecodeReplace bs := by
  conv_lhs => unfold utf8DecodeReplace
  rw [if_pos hb]

theorem groupTokens_cons_inr (c : Char) (X : List (Sum Nat Char)) :
    groupTokens (Sum.inr c :: X) = Sum.inr c :: groupTokens X := rfl

theorem decode_group_cons_inl (b : Nat) (X : List (Sum Nat Char)) (hb : b < 0x80) :
    (groupTokens (Sum.inl b :: X)).flatMap (fun t => match t with
        | Sum.inl bs => utf8DecodeReplace bs
        | Sum.inr c => [c])
      = Char.ofNat b :: (groupTokens X).flatMap (fun t => match t with
        | Sum.inl bs => utf8DecodeReplace bs
        | Sum.inr c => [c]) := by
  rw [show groupTokens (Sum.inl b :: X)
    = (match groupTokens X with
       | Sum.inl bs :: out => Sum.inl (b :: bs) :: out
       | out => Sum.inl [b] :: out) from rfl]
  cases hg : groupTokens X with
  | nil =>
    rw [show (match ([] : List (Sum (List Nat) Char)) with
       | Sum.inl bs :: out => Sum.inl (b :: bs) :: out
       | out => Sum.inl [b] :: out) = [Sum.inl [b]] from rfl]
    simp only [List.flatMap_cons, List.flatMap_nil, List.append_nil]
    rw [utf8DecodeReplace_cons_ascii b [] hb]
    rfl
  | cons head out =>
    cases head with
    | inl bs =>
      rw [show (match (Sum.inl bs :: out : List (Sum (List Nat) Char)) with
         | Sum.inl bs :: out => Sum.inl (b :: bs) :: out
         | out => Sum.inl [b] :: out) = Sum.inl (b :: bs) :: out from rfl]
      simp only [List.flatMap_cons]
      rw [utf8DecodeReplace_cons_ascii b bs hb]
      simp
    | inr c =>
      rw [show (match (Sum.inr c :: out : List (Sum (List Nat) Char)) with
         | Sum.inl bs :: out => Sum.inl (b :: bs) :: out
         | out => Sum.inl [b] :: out) = Sum.inl [b] :: Sum.inr c :: out from rfl]
      simp only [List.flatMap_cons]
      rw [utf8DecodeReplace_cons_ascii b [] hb]
      simp
      rfl

theorem unquoteTokens_cons_of_ne (c : Char) (t : List Char) (hc : c ≠ '%') :
    unquoteTokens (c :: t)
      = (if c.toNat < 128 then Sum.inl c.toNat else Sum.inr c) :: unquoteTokens t := by
  conv_lhs => unfold unquoteTokens
  rw [if_neg hc]

theorem unquote_no_percent (l : List Char) (h : '%' ∉ l) : unquote l = l := by
  unfold unquote
  induction l with
  | nil => rfl
  | cons c t ih =>
    have hc : c ≠ '%' := fun hcc => h (hcc ▸ List.mem_cons_self _ _)
    have ht : '%' ∉ t := fun hm => h (List.mem_cons_of_mem _ hm)
    rw [unquoteTokens_cons_of_ne c t hc]
    by_cases ha : c.toNat < 128
    · rw [if_pos ha, decode_group_cons_inl _ _ ha, Char.ofNat_toNat, ih ht]
    · rw [if_neg ha, groupTokens_cons_inr, List.flatMap_cons, ih ht]
      rfl

/-! ## Stage identities of the sanitizer on canonical names (claim C2) -/

theorem takeWhile_eq_self (p : Char → Bool) (l : List Char)
    (h : ∀ c ∈ l, p c = true) : l.takeWhile p = l := by
  induction l with
  | nil => rfl
  | cons c t ih =>
    rw [List.takeWhile_cons_of_pos (h c (List.mem_cons_self _ _))]
    rw [ih (fun d hd => h d (List.mem_cons_of_mem _ hd))]

theorem basename_id (l : List Char) (h : '/' ∉ l) : basename l = l := by
  unfold basename
  rw [takeWhile_eq_self _ _ (fun c hc => by
    have hcs : c ≠ '/' := fun hcc => h (hcc ▸ List.mem_reverse.mp hc)
    simp [hcs])]
  exact List.reverse_reverse l

theorem pyStrip_id (l : List Char)
    (hh : ∀ c, l.head? = some c → isPySpace c = false)
    (hl : ∀ c, l.getLast? = some c → isPySpace c = false) :
    pyStrip l = l := by
  unfold pyStrip pyLStrip pyRStrip
  cases l with
  | nil => rfl
  | cons c t =>
    rw [List.dropWhile_cons_of_neg (by simp [hh c rfl])]
    cases hr : (c :: t).reverse with
    | nil => exact absurd hr (by simp)
    | cons d r =>
      have hd : (c :: t).getLast? = some d := by
        rw [← List.head?_reverse, hr]
        rfl
      rw [List.dropWhile_cons_of_neg (by simp [hl d hd]), ← hr, List.reverse_reverse]

theorem takeWhile_all_append (p : Char → Bool) (xs : List Char) (d : Char)
    (ys : List Char) (hxs : ∀ c ∈ xs, p c = true) (hd : p d = false) :
    (xs ++ d :: ys).takeWhile p = xs := by
  induction xs with
  | nil =>
    rw [List.nil_append, List.takeWhile_cons_of_neg (by simp [hd])]
  | cons x xt ih =>
    rw [List.cons_append, List.takeWhile_cons_of_pos (hxs x (List.mem_cons_self _ _)),
      ih (fun c hc => hxs c (List.mem_cons_of_mem _ hc))]

theorem splitext_concat (stem suffix : List Char) (hsuf_ne : suffix ≠ [])
    (hnd : ∀ c ∈ suffix, c ≠ '.' ∧ c ≠ '/') (hstem_sl : '/' ∉ stem)
    (hsome : ∃ c ∈ stem, c ≠ '.') :
    splitext (stem ++ '.' :: suffix) = (stem, '.' :: suffix) := by
  have hstem_ne : stem ≠ [] := by
    rcases hsome with ⟨c, hc, -⟩
    exact fun h0 => by simp [h0] at hc
  have hrev : (stem ++ '.' :: suffix).reverse = suffix.reverse ++ '.' :: stem.reverse := by
    rw [List.reverse_append, List.reverse_cons, List.append_assoc, List.singleton_append]
  have hTW : (suffix.reverse ++ '.' :: stem.reverse).takeWhile (fun c => c ≠ '.')
      = suffix.reverse :=
    takeWhile_all_append _ _ _ _
      (fun c hc => by simp [(hnd c (List.mem_reverse.mp hc)).1]) (by simp)
  simp only [splitext, hrev, hTW]
  rw [if_neg (by
    simp only [List.length_reverse, List.length_append, List.length_cons]
    have : stem.length ≠ 0 := fun h0 => hstem_ne (List.length_eq_zero.mp h0)
    omega)]
  rw [if_neg (by
    intro hcon
    have hm := List.mem_reverse.mp (List.mem_of_elem_eq_true hcon)
    exact (hnd '/' hm).2 rfl)]
  have hdrop : (suffix.reverse ++ '.' :: stem.reverse).drop (suffix.reverse.length + 1)
      = stem.reverse := by
    rw [← List.drop_drop, List.drop_left]
    rfl
  rw [hdrop]
  rw [if_pos (by
    rw [takeWhile_eq_self _ _ (fun c hc => by
      have hcs : c ≠ '/' := fun hcc => hstem_sl (hcc ▸ List.mem_reverse.mp hc)
      simp [hcs])]
    rw [List.any_eq_true]
    rcases hsome with ⟨c, hc, hcd⟩
    exact ⟨c, List.mem_reverse.mpr hc, by simpa using hcd⟩)]
  have harg : (stem ++ '.' :: suffix).length - suffix.reverse.length - 1 = stem.length := by
    simp only [List.length_reverse, List.length_append, List.length_cons]
    omega
  rw [harg, List.take_left, List.reverse_reverse]

theorem patternSubAux_id_of_no_bad (bad : Char → Bool) (l : List Char)
    (h : ∀ c ∈ l, bad c = false) : patternSubAux bad false l = l := by
  induction l with
  | nil => rfl
  | cons c t ih =>
    unfold patternSubAux
    rw [if_neg (by simp [h c (List.mem_cons_self _ _)])]
    rw [ih (fun d hd => h d (List.mem_cons_of_mem _ hd))]

theorem patternSub_id_of_no_bad (bad : Char → Bool) (l : List Char)
    (h : ∀ c ∈ l, bad c = false) : patternSub bad l = l :=
  patternSubAux_id_of_no_bad bad l h

theorem noAdjPair_tail (p : Char → Char → Bool) (c : Char) (t : List Char)
    (h : noAdjPair p (c :: t) = true) : noAdjPair p t = true := by
  cases t with
  | nil => rfl
  | cons d r =>
    have : (!p c d && noAdjPair p (d :: r)) = true := h
    exact (Bool.and_eq_true_iff.mp this).2

theorem noAdjPair_head (p : Char → Char → Bool) (c d : Char) (t : List Char)
    (h : noAdjPair p (c :: d :: t) = true) : p c d = false := by
  have : (!p c d && noAdjPair p (d :: t)) = true := h
  have h1 := (Bool.and_eq_true_iff.mp this).1
  simpa using h1

theorem patternSub_space_id (l : List Char)
    (hsp : ∀ c ∈ l, isPySpace c = true → c = ' ')
    (hadj : noAdjPair (fun a b => a = ' ' && b = ' ') l = true) :
    patternSub isPySpace l = l := by
  unfold patternSub
  induction l with
  | nil => rfl
  | cons c t ih =>
    unfold patternSubAux
    by_cases hc : isPySpace c = true
    · have hceq : c = ' ' := hsp c (List.mem_cons_self _ _) hc
      rw [if_pos hc]
      cases t with
      | nil =>
        rw [hceq]
        rfl
      | cons d t' =>
        have hd : isPySpace d = false := by
          by_cases hds : isPySpace d = true
          · have hdeq : d = ' ' := hsp d (by simp) hds
            have hpair := noAdjPair_head _ c d t' hadj
            rw [hceq, hdeq] at hpair
            simp at hpair
          · simpa using hds
        have haux : patternSubAux isPySpace true (d :: t')
            = patternSubAux isPySpace false (d :: t') := by
          unfold patternSubAux
          rw [if_neg (by simp [hd]), if_neg (by simp [hd])]
        rw [haux, ih (fun e he => hsp e (List.mem_cons_of_mem _ he))
          (noAdjPair_tail _ _ _ hadj), hceq]
        simp
    · rw [if_neg hc, ih (fun e he => hsp e (List.mem_cons_of_mem _ he))
        (noAdjPair_tail _ _ _ hadj)]

theorem replaceDoubleDot_id : (l : List Char) →
    noAdjPair (fun a b => a = '.' && b = '.') l = true → replaceDoubleDot l = l
  | [], _ => rfl
  | [c], _ => rfl
  | c :: d :: rest, h => by
    have hcd := noAdjPair_head _ c d rest h
    rw [show replaceDoubleDot (c :: d :: rest)
      = if c = '.' ∧ d = '.' then '.' :: replaceDoubleDot rest
        else c :: replaceDoubleDot (d :: rest) from rfl]
    rw [if_neg (by
      rintro ⟨rfl, rfl⟩
      simp at hcd)]
    rw [replaceDoubleDot_id (d :: rest) (noAdjPair_tail _ _ _ h)]

theorem noAdjPair_append (p : Char → Char → Bool) (xs ys : List Char)
    (hx : noAdjPair p xs = true) (hy : noAdjPair p ys = true)
    (hb : ∀ a b, xs.getLast? = some a → ys.head? = some b → p a b = false) :
    noAdjPair p (xs ++ ys) = true := by
  induction xs with
  | nil => exact hy
  | cons x xs' ih =>
    cases xs' with
    | nil =>
      cases ys with
      | nil => rfl
      | cons y ys' =>
        show (!p x y && noAdjPair p (y :: ys')) = true
        rw [Bool.and_eq_true_iff]
        exact ⟨by simp [hb x y rfl rfl], hy⟩
    | cons x2 xs'' =>
      show (!p x x2 && noAdjPair p ((x2 :: xs'') ++ ys)) = true
      rw [Bool.and_eq_true_iff]
      refine ⟨by simp [noAdjPair_head _ _ _ _ hx], ?_⟩
      refine ih (noAdjPair_tail _ _ _ hx) ?_
      intro a b ha hbb
      refine hb a b ?_ hbb
      rw [List.getLast?_cons_cons]
      exact ha

theorem noAdjPair_of_forall_ne (l : List Char) (a : Char)
    (h : ∀ c ∈ l, c ≠ a) :
    noAdjPair (fun x y => x = a && y = a) l = true := by
  induction l with
  | nil => rfl
  | cons c t ih =>
    cases t with
    | nil => rfl
    | cons d r =>
      show (!(c = a && d = a) && noAdjPair _ (d :: r)) = true
      rw [Bool.and_eq_true_iff]
      refine ⟨by simp [h c (List.mem_cons_self _ _)], ih ?_⟩
      intro e he
      exact h e (List.mem_cons_of_mem _ he)

/-- A character that the filename pattern keeps and that Python considers
whitespace can only be the plain space. -/
theorem allowed_space_eq (c : Char) (hal : isFilenameAllowedChar c = true)
    (hsp : isPySpace c = true) : c = ' ' := by
  have h32 : c.toNat = 32 := by
    simp only [isFilenameAllowedChar, Bool.or_eq_true, Bool.and_eq_true,
      decide_eq_true_eq] at hal
    simp only [isPySpace, Bool.or_eq_true, Bool.and_eq_true,
      decide_eq_true_eq] at hsp
    omega
  calc c = Char.ofNat c.toNat := (Char.ofNat_toNat c).symm
    _ = ' ' := by rw [h32]

theorem allowed_not_space (c : Char) (hal : isFilenameAllowedChar c = true)
    (hne : c ≠ ' ') : isPySpace c = false := by
  cases hs : isPySpace c with
  | false => rfl
  | true => exact absurd (allowed_space_eq c hal hs) hne

theorem lowerAlnum_not_space (c : Char) (h : isLowerAlnumChar c = true) :
    isPySpace c = false := by
  cases hs : isPySpace c with
  | false => rfl
  | true =>
    exfalso
    simp only [isLowerAlnumChar, Bool.or_eq_true, Bool.and_eq_true,
      decide_eq_true_eq] at h
    simp only [isPySpace, Bool.or_eq_true, Bool.and_eq_true,
      decide_eq_true_eq] at hs
    omega

theorem lowerAlnum_ne_dot (c : Char) (h : isLowerAlnumChar c = true) : c ≠ '.' := by
  intro hc
  rw [hc] at h
  exact absurd h (by decide)

theorem lowerAlnum_ne_slash (c : Char) (h : isLowerAlnumChar c = true) : c ≠ '/' := by
  intro hc
  rw [hc] at h
  exact absurd h (by decide)

theorem lowerAlnum_isAlnum (c : Char) (h : isLowerAlnumChar c = true) :
    pyIsAlnum c = true := by
  simp only [isLowerAlnumChar, Bool.or_eq_true, Bool.and_eq_true,
    decide_eq_true_eq] at h
  simp only [pyIsAlnum, Bool.or_eq_true, Bool.and_eq_true, decide_eq_true_eq]
  omega

theorem lowerAlnum_toLower (c : Char) (h : isLowerAlnumChar c = true) :
    pyToLower c = c := by
  simp only [isLowerAlnumChar, Bool.or_eq_true, Bool.and_eq_true,
    decide_eq_true_eq] at h
  unfold pyToLower
  rw [if_neg (by
    intro hcon
    rw [Bool.and_eq_true_iff] at hcon
    simp only [decide_eq_true_eq] at hcon
    omega)]

theorem map_toLower_id (l : List Char) (h : ∀ c ∈ l, isLowerAlnumChar c = true) :
    l.map pyToLower = l := by
  induction l with
  | nil => rfl
  | cons c t ih =>
    rw [List.map_cons, lowerAlnum_toLower c (h c (List.mem_cons_self _ _)),
      ih (fun d hd => h d (List.mem_cons_of_mem _ hd))]

/-- The extension-cleaning stage of `sanitize_filename` is the identity on an
already-clean extension `'.' :: suffix` (lower-case alphanumeric suffix). -/
theorem ext_clean_id (suffix : List Char) (hne : suffix ≠ [])
    (hs : ∀ c ∈ suffix, isLowerAlnumChar c = true) :
    ((('.' :: suffix).map pyToLower).dropWhile (fun c => c = '.')).filter pyIsAlnum
      = suffix := by
  rw [List.map_cons, show pyToLower '.' = '.' from by decide,
    map_toLower_id suffix hs]
  rw [List.dropWhile_cons_of_pos (by simp)]
  cases suffix with
  | nil => exact absurd rfl hne
  | cons s0 t =>
    rw [List.dropWhile_cons_of_neg
      (by simp [lowerAlnum_ne_dot s0 (hs s0 (List.mem_cons_self _ _))])]
    rw [List.filter_eq_self.mpr (fun c hc => lowerAlnum_isAlnum c (hs c hc))]

theorem getLast?_cons_of_ne_nil (a : Char) (l : List Char) (h : l ≠ []) :
    (a :: l).getLast? = l.getLast? := by
  rw [show (a :: l) = [a] ++ l from rfl, List.getLast?_append_of_ne_nil _ h]

/-- `sanitize_filename` is the identity on its canonical output shape: a stem
of allowed characters (no run of spaces or dots, no leading/trailing space, no
trailing dot, at least one non-dot character) followed by a dot and a
non-empty lower-case alphanumeric extension, within the 255-character limit. -/
theorem sanitize_filename_fixed (de stem suffix : List Char)
    (hsuf_ne : suffix ≠ [])
    (hsuf : ∀ c ∈ suffix, isLowerAlnumChar c = true)
    (hstem_al : ∀ c ∈ stem, isFilenameAllowedChar c = true)
    (hsome : ∃ c ∈ stem, c ≠ '.')
    (hsp_adj : noAdjPair (fun a b => a = ' ' && b = ' ') stem = true)
    (hdd_adj : noAdjPair (fun a b => a = '.' && b = '.') stem = true)
    (hhead_sp : stem.head? ≠ some ' ')
    (hlast_sp : stem.getLast? ≠ some ' ')
    (hlast_dot : stem.getLast? ≠ some '.')
    (hlen : stem.length + 1 + suffix.length ≤ 255) :
    sanitize_filename (stem ++ '.' :: suffix) de = stem ++ '.' :: suffix := by
  have hstem_ne : stem ≠ [] := by
    rcases hsome with ⟨c, hc, -⟩
    exact fun h0 => by simp [h0] at hc
  have hnotin : ∀ k : Char, isFilenameAllowedChar k = false →
      isLowerAlnumChar k = false → k ≠ '.' → k ∉ stem ++ '.' :: suffix := by
    intro k h1 h2 h3 hm
    rcases List.mem_append.mp hm with hm | hm
    · rw [hstem_al k hm] at h1
      cases h1
    · rcases List.mem_cons.mp hm with hk | hm
      · exact h3 hk
      · rw [hsuf k hm] at h2
        cases h2
  have hpc : '%' ∉ stem ++ '.' :: suffix := hnotin '%' (by decide) (by decide) (by decide)
  have hbk : '\\' ∉ stem ++ '.' :: suffix := hnotin '\\' (by decide) (by decide) (by decide)
  have hsl : '/' ∉ stem ++ '.' :: suffix := hnotin '/' (by decide) (by decide) (by decide)
  have hyhead : ∀ c, (stem ++ '.' :: suffix).head? = some c → isPySpace c = false := by
    intro c hc
    cases stem with
    | nil => exact absurd rfl hstem_ne
    | cons s0 st =>
      rw [List.cons_append, List.head?_cons, Option.some_inj] at hc
      rw [← hc]
      exact allowed_not_space s0 (hstem_al s0 (List.mem_cons_self _ _))
        (fun he => hhead_sp (by rw [List.head?_cons, he]))
  have hylast : ∀ c, (stem ++ '.' :: suffix).getLast? = some c → isPySpace c = false := by
    intro c hc
    rw [List.getLast?_append_of_ne_nil _ (by simp : ('.' :: suffix : List Char) ≠ []),
      getLast?_cons_of_ne_nil '.' suffix hsuf_ne] at hc
    exact lowerAlnum_not_space c (hsuf c (List.mem_of_mem_getLast? hc))
  have hyE : (stem ++ '.' :: suffix).isEmpty = false := by
    cases stem with
    | nil => exact absurd rfl hstem_ne
    | cons a b => rfl
  have hq : unquote (stem ++ '.' :: suffix) = stem ++ '.' :: suffix :=
    unquote_no_percent _ hpc
  have hr1 : replaceChar '%' ' ' (stem ++ '.' :: suffix) = stem ++ '.' :: suffix :=
    replaceChar_id _ _ _ hpc
  have hr2 : replaceChar '\\' '/' (stem ++ '.' :: suffix) = stem ++ '.' :: suffix :=
    replaceChar_id _ _ _ hbk
  have hbn : basename (stem ++ '.' :: suffix) = stem ++ '.' :: suffix :=
    basename_id _ hsl
  have hst : pyStrip (stem ++ '.' :: suffix) = stem ++ '.' :: suffix :=
    pyStrip_id _ hyhead hylast
  have hif1 : (if (stem ++ '.' :: suffix).isEmpty = true
      then DEFAULT_BASENAME ++ de else stem ++ '.' :: suffix) = stem ++ '.' :: suffix := by
    rw [hyE]
    simp
  have hsplit : splitext (stem ++ '.' :: suffix) = (stem, '.' :: suffix) :=
    splitext_concat stem suffix hsuf_ne
      (fun c hc => ⟨lowerAlnum_ne_dot c (hsuf c hc), lowerAlnum_ne_slash c (hsuf c hc)⟩)
      (fun hm => hsl (List.mem_append_left _ hm))
      hsome
  have hsplit1 : (splitext (stem ++ '.' :: suffix)).1 = stem := by rw [hsplit]
  have hsplit2 : (splitext (stem ++ '.' :: suffix)).2 = '.' :: suffix := by rw [hsplit]
  have hsufE : suffix.isEmpty = false := by
    cases suffix with
    | nil => exact absurd rfl hsuf_ne
    | cons a b => rfl
  have hif2 : (if (('.' :: suffix : List Char)).isEmpty = true then de
      else if (((('.' :: suffix).map pyToLower).dropWhile (fun c => c = '.')).filter
          pyIsAlnum).isEmpty = true then de
        else '.' :: ((('.' :: suffix).map pyToLower).dropWhile (fun c => c = '.')).filter
          pyIsAlnum) = '.' :: suffix := by
    rw [show (('.' :: suffix : List Char)).isEmpty = false from rfl]
    rw [ext_clean_id suffix hsuf_ne hsuf, hsufE]
    simp
  have hname1 : patternSub (fun c => !(isFilenameAllowedChar c)) stem = stem :=
    patternSub_id_of_no_bad _ _ (fun c hc => by simp [hstem_al c hc])
  have hname2 : patternSub isPySpace stem = stem :=
    patternSub_space_id stem
      (fun c hc hspc => allowed_space_eq c (hstem_al c hc) hspc) hsp_adj
  have hstemhead : ∀ c, stem.head? = some c → isPySpace c = false :=
    fun c hc => allowed_not_space c (hstem_al c (List.mem_of_mem_head? hc))
      (fun he => hhead_sp (he ▸ hc))
  have hstemlast : ∀ c, stem.getLast? = some c → isPySpace c = false :=
    fun c hc => allowed_not_space c (hstem_al c (List.mem_of_mem_getLast? hc))
      (fun he => hlast_sp (he ▸ hc))
  have hname3 : pyStrip stem = stem := pyStrip_id stem hstemhead hstemlast
  have hstemE : stem.isEmpty = false := by
    cases stem with
    | nil => exact absurd rfl hstem_ne
    | cons a b => rfl
  have hif3 : (if stem.isEmpty = true then DEFAULT_BASENAME else stem) = stem := by
    rw [hstemE]
    simp
  have hddy : noAdjPair (fun a b => a = '.' && b = '.') (stem ++ '.' :: suffix) = true := by
    refine noAdjPair_append _ _ _ hdd_adj ?_ ?_
    · cases suffix with
      | nil => exact absurd rfl hsuf_ne
      | cons f0 t =>
        show (!(('.' : Char) = '.' && f0 = '.')
          && noAdjPair (fun a b => a = '.' && b = '.') (f0 :: t)) = true
        rw [Bool.and_eq_true_iff]
        constructor
        · simp [lowerAlnum_ne_dot f0 (hsuf f0 (List.mem_cons_self _ _))]
        · exact noAdjPair_of_forall_ne (f0 :: t) '.'
            (fun c hc => lowerAlnum_ne_dot c (hsuf c hc))
    · intro a b ha hb
      rw [List.head?_cons, Option.some_inj] at hb
      have hane : a ≠ '.' := fun he => hlast_dot (he ▸ ha)
      rw [← hb]
      simp [hane]
  have hdd2 : replaceDoubleDot (stem ++ '.' :: suffix) = stem ++ '.' :: suffix :=
    replaceDoubleDot_id _ hddy
  have htake : (stem ++ '.' :: suffix).take 255 = stem ++ '.' :: suffix :=
    List.take_of_length_le (by
      simp only [List.length_append, List.length_cons]
      omega)
  simp only [sanitize_filename, hq, hr1, hr2, hbn, hst, hif1, hsplit1, hsplit2,
    hif2, hname1, hname2, hname3, hif3, hdd2, htake]

/-- C2 counterexample: `sanitize_filename` is NOT idempotent.  The
`'..' -> '.'` replacement (storage.py line 58) substitutes left-to-right and
non-overlapping, so `"a...b.html"` sanitizes to `"a..b.html"` (the leftover
dot pair survives), and a second application shrinks it again to
`"a.b.html"`: the results differ. -/
theorem c2_counterexample :
    sanitize_filename "a...b.html".toList = "a..b.html".toList ∧
    sanitize_filename (sanitize_filename "a...b.html".toList)
      ≠ sanitize_filename "a...b.html".toList := by
  constructor
  · decide
  · decide

/-- C2 (amended): `sanitize_filename` is idempotent on every input whose
sanitized form is canonical — a non-empty stem of allowed characters with no
adjacent space pair, no adjacent dot pair, at least one non-dot character, no
leading/trailing space and no trailing dot, followed by `'.'` and a non-empty
lower-case alphanumeric extension, all within 255 characters.  (By
`c2_counterexample` the unrestricted claim is false: a sanitized form can
retain an adjacent dot pair.) -/
theorem c2_idempotent_canonical (x de stem suffix : List Char)
    (h : sanitize_filename x de = stem ++ '.' :: suffix)
    (hsuf_ne : suffix ≠ [])
    (hsuf : ∀ c ∈ suffix, isLowerAlnumChar c = true)
    (hstem_al : ∀ c ∈ stem, isFilenameAllowedChar c = true)
    (hsome : ∃ c ∈ stem, c ≠ '.')
    (hsp_adj : noAdjPair (fun a b => a = ' ' && b = ' ') stem = true)
    (hdd_adj : noAdjPair (fun a b => a = '.' && b = '.') stem = true)
    (hhead_sp : stem.head? ≠ some ' ')
    (hlast_sp : stem.getLast? ≠ some ' ')
    (hlast_dot : stem.getLast? ≠ some '.')
    (hlen : stem.length + 1 + suffix.length ≤ 255) :
    sanitize_filename (sanitize_filename x de) de = sanitize_filename x de := by
  rw [h]
  exact sanitize_filename_fixed de stem suffix hsuf_ne hsuf hstem_al hsome
    hsp_adj hdd_adj hhead_sp hlast_sp hlast_dot hlen

theorem c2_idempotent_canonical_witness :
    sanitize_filename "Some%20File.HTML".toList = "Some File.html".toList ∧
    sanitize_filename (sanitize_filename "Some%20File.HTML".toList)
      = sanitize_filename "Some%20File.HTML".toList :=
  ⟨by decide,
   c2_idempotent_canonical "Some%20File.HTML".toList DEFAULT_EXTENSION
     "Some File".toList "html".toList (by decide) (by decide) (by decide)
     (by decide) (by decide) (by decide) (by decide) (by decide) (by decide)
     (by decide) (by decide)⟩
